import Mathlib

/-!
Verification of the task-graph planner in `src/agents/work_planner.py`.

The definitions below are a shallow embedding of the planner's data model
(`TaskPriority`, `TaskStatus`, `WorkTask`, `WorkPlan`, `WorkPlanner`) and of its
graph algorithms and bookkeeping methods:

* `validate_dependencies` embeds `WorkPlanner._validate_dependencies`
  (DFS cycle detection over the id -> dependencies dictionary);
* `topological_sort` embeds `WorkPlanner._topological_sort` (Kahn's algorithm);
* `estimate_timeline` embeds `WorkPlanner.estimate_timeline` together with
  `_calculate_parallel_timeline`, `_identify_milestones` and
  `_find_critical_path`;
* `track_progress` embeds `WorkPlanner.track_progress` together with
  `_get_next_available_tasks`.

Python floats are modelled by `ℚ` (the chunk-minute sums involved are integers,
and every claim about the hour values is a claim about the exact arithmetic
expressions the code computes).  Python `int` is modelled by `Int`.  The
recursions in the source that are not structurally decreasing (the DFS, the
Kahn while-loop, the critical-path search) take an explicit fuel argument that
strictly dominates the recursion depth of the original program.
-/

namespace Planner

/-- Enum `TaskPriority` from the source; `value` is the Python `.value` string. -/
inductive TaskPriority where
  | critical
  | high
  | medium
  | low
deriving DecidableEq, Repr

def TaskPriority.value : TaskPriority → String
  | .critical => "critical"
  | .high => "high"
  | .medium => "medium"
  | .low => "low"

/-- Enum `TaskStatus` from the source. -/
inductive TaskStatus where
  | pending
  | in_progress
  | blocked
  | completed
deriving DecidableEq, Repr

/-- Dataclass `WorkTask` (the `created_at` timestamp is irrelevant to every
algorithm and is omitted). -/
structure WorkTask where
  id : String
  title : String := ""
  description : String := ""
  estimated_minutes : Int := 0
  priority : TaskPriority := .medium
  status : TaskStatus := .pending
  dependencies : List String := []
  acceptance_criteria : List String := []
  risks : List String := []
  tags : List String := []
deriving DecidableEq, Repr

/-- Dataclass `WorkPlan` (again without the timestamp). -/
structure WorkPlan where
  name : String
  goal : String := ""
  tasks : List WorkTask
  total_estimated_hours : ℚ := 0
  prd_reference : Option String := none
deriving DecidableEq, Repr

/-- The planner object: `self.work_plans` is a Python dict from plan name to
plan, modelled as an insertion-ordered association list. -/
structure WorkPlanner where
  work_plans : List (String × WorkPlan)
deriving DecidableEq, Repr

/-! ## Dependency graphs -/

/-- The `dependency_graph` dict mapping a task id to its dependency ids,
modelled as an insertion-ordered association list with unique keys. -/
abbrev DepGraph := List (String × List String)

/-- Model of `dependency_graph.get(node, [])`. -/
def DepGraph.get (g : DepGraph) (node : String) : List String :=
  match g.find? (fun p => p.1 == node) with
  | some p => p.2
  | none => []

def DepGraph.keys (g : DepGraph) : List String := g.map (fun p => p.1)

/-- Python dict assignment `d[k] = v`: overwrite in place if the key exists,
append otherwise. -/
def dictInsert (g : DepGraph) (k : String) (v : List String) : DepGraph :=
  match g with
  | [] => [(k, v)]
  | p :: rest => if p.1 == k then (k, v) :: rest else p :: dictInsert rest k v

/-- The dict `{task.id: task.dependencies}` built in
`WorkPlanner.analyze_dependencies`. -/
def taskGraph (tasks : List WorkTask) : DepGraph :=
  tasks.foldl (fun g t => dictInsert g t.id t.dependencies) []

/-- A dependency edge of the task set: `a`'s task lists `b` in `dependencies`. -/
def Edge (tasks : List WorkTask) (a b : String) : Prop :=
  ∃ t ∈ tasks, t.id = a ∧ b ∈ t.dependencies

/-- A dependency edge of a graph dict. -/
def GEdge (g : DepGraph) (a b : String) : Prop := b ∈ g.get a

/-- A path of exactly `n` edges of the relation `r`. -/
def PathN (r : String → String → Prop) : Nat → String → String → Prop
  | 0, a, b => a = b
  | n+1, a, b => ∃ c, r a c ∧ PathN r n c b

/-- The graph of `r` contains a (nonempty) cycle. -/
def HasCycle (r : String → String → Prop) : Prop :=
  ∃ a n, 0 < n ∧ PathN r n a a

def Acyclic (r : String → String → Prop) : Prop := ¬ HasCycle r

/-! ## `WorkPlanner._topological_sort` (Kahn's algorithm) -/

def taskIds (tasks : List WorkTask) : List String := tasks.map (fun t => t.id)

/-- Key list of a Python dict keyed by task id: first occurrences, in order. -/
def firstKeys : List String → List String
  | [] => []
  | i :: rest => i :: (firstKeys rest).filter (fun j => j != i)

/-- The `in_degree` dict after the two initialisation loops: every id starts at
`0`, then each dependency occurrence that refers to an existing id adds one to
the depending task's entry. -/
def initInDegree (tasks : List WorkTask) : String → Int :=
  tasks.foldl
    (fun acc t =>
      t.dependencies.foldl
        (fun acc2 d =>
          if d ∈ taskIds tasks then
            fun x => if x = t.id then acc2 t.id + 1 else acc2 x
          else acc2)
        acc)
    (fun _ => 0)

/-- Model of `queue = [task_id for task_id, degree in in_degree.items() if degree == 0]`. -/
def initQueue (tasks : List WorkTask) (indeg : String → Int) : List String :=
  (firstKeys (taskIds tasks)).filter (fun i => indeg i == 0)

/-- Model of the lookup `task_map[current]` where `task_map` maps `task.id` to
`task` (last binding wins). -/
def taskMapFind (tasks : List WorkTask) (i : String) : Option WorkTask :=
  tasks.reverse.find? (fun t => t.id == i)

/-- The inner update loop of the Kahn iteration: for each task that depends on
`current`, decrement its in-degree and enqueue it if the new value is zero. -/
def kahnStep (current : String) :
    List WorkTask → (String → Int) → List String → (String → Int) × List String
  | [], indeg, queue => (indeg, queue)
  | t :: ts, indeg, queue =>
    if current ∈ t.dependencies then
      kahnStep current ts (fun x => if x = t.id then indeg t.id - 1 else indeg x)
        (if indeg t.id - 1 = 0 then queue ++ [t.id] else queue)
    else
      kahnStep current ts indeg queue

/-- The `while queue:` loop.  The fuel strictly dominates the number of
iterations of the source loop (each id is enqueued at most twice over a run). -/
def kahnLoop (tasks : List WorkTask) :
    Nat → (String → Int) → List String → List WorkTask → List WorkTask
  | _, _, [], result => result
  | 0, _, _ :: _, result => result
  | fuel+1, indeg, current :: rest, result =>
    let result2 :=
      match taskMapFind tasks current with
      | some t => result ++ [t]
      | none => result
    let st := kahnStep current tasks indeg rest
    kahnLoop tasks fuel st.1 st.2 result2

/-- Embedding of `WorkPlanner._topological_sort`. -/
def topological_sort (tasks : List WorkTask) : List WorkTask :=
  kahnLoop tasks (2 * tasks.length + 1) (initInDegree tasks)
    (initQueue tasks (initInDegree tasks)) []

/-! ## `WorkPlanner._validate_dependencies` (DFS cycle detection) -/

mutual
/-- The recursive closure `has_cycle(node)`: mark `node` visited and on the
recursion stack, then scan its neighbours.  Fuel bounds the recursion depth;
`none` means fuel ran out (never happens from the actual entry point). -/
def hasCycleDfs (g : DepGraph) : Nat → String → List String → List String →
    Option (Bool × List String × List String)
  | 0, _, _, _ => none
  | fuel+1, node, visited, recStack =>
    hasCycleNbrs g fuel node (g.get node) (node :: visited) (node :: recStack)
termination_by fuel _ _ _ => (fuel, 0)

/-- The `for neighbor in dependency_graph.get(node, []):` loop of `has_cycle`,
with the trailing `rec_stack.remove(node); return False`. -/
def hasCycleNbrs (g : DepGraph) : Nat → String → List String → List String → List String →
    Option (Bool × List String × List String)
  | _, node, [], visited, recStack => some (false, visited, recStack.erase node)
  | fuel, node, nb :: nbs, visited, recStack =>
    if nb ∈ visited then
      if nb ∈ recStack then some (true, visited, recStack)
      else hasCycleNbrs g fuel node nbs visited recStack
    else
      match hasCycleDfs g fuel nb visited recStack with
      | none => none
      | some (true, v, r) => some (true, v, r)
      | some (false, v, r) => hasCycleNbrs g fuel node nbs v r
termination_by fuel _ nbs _ _ => (fuel, nbs.length + 1)
end

/-- The outer `for node in dependency_graph:` loop of `_validate_dependencies`. -/
def validateLoop (g : DepGraph) (fuel : Nat) :
    List String → List String → List String → Option Bool
  | [], _, _ => some true
  | node :: rest, visited, recStack =>
    if node ∈ visited then validateLoop g fuel rest visited recStack
    else
      match hasCycleDfs g fuel node visited recStack with
      | none => none
      | some (true, _, _) => some false
      | some (false, v, r) => validateLoop g fuel rest v r

/-- All node names mentioned by the graph (keys and dependency entries). -/
def depsConcat : DepGraph → List String
  | [] => []
  | p :: rest => p.2 ++ depsConcat rest

def allNodes (g : DepGraph) : List String := DepGraph.keys g ++ depsConcat g

def dfsFuel (g : DepGraph) : Nat := (allNodes g).length + 1

/-- Embedding of `WorkPlanner._validate_dependencies`: `some true` for a cycle-free graph,
`some false` when a cycle is detected (the source also prints a fixed warning
string carrying no ids in that case, and returns the bare boolean). -/
def validate_dependencies (g : DepGraph) : Option Bool :=
  validateLoop g (dfsFuel g) (DepGraph.keys g) [] []

/-! ## `WorkPlanner.estimate_timeline` and helpers -/

structure Milestone where
  name : String
  task_count : Nat
  cumulative_hours : ℚ
deriving DecidableEq, Repr

/-- The `timeline` dict returned by `estimate_timeline`; the source dict's keys
are, in order: `"sequential_hours"`, `"parallel_estimate"`, `"milestones"`,
`"critical_path"` (recorded in `estimate_timeline_keys`). -/
structure Timeline where
  sequential_hours : ℚ
  parallel_estimate : ℚ
  milestones : List Milestone
  critical_path : List String
deriving DecidableEq, Repr

/-- The key strings of the dict literal built at the end of
`WorkPlanner.estimate_timeline`, in source order. -/
def estimate_timeline_keys : List String :=
  ["sequential_hours", "parallel_estimate", "milestones", "critical_path"]

def minutesSum (tasks : List WorkTask) : Int :=
  (tasks.map (fun t => t.estimated_minutes)).sum

/-- Embedding of `WorkPlanner._calculate_parallel_timeline`: the sequential total times 0.7. -/
def calculate_parallel_timeline (sorted_tasks : List WorkTask) : ℚ :=
  ((minutesSum sorted_tasks : ℚ) / 60) * (7 / 10)

/-- The loop body of `WorkPlanner._identify_milestones`. -/
def identifyMilestonesAux : List WorkTask → Nat → ℚ → List Milestone → List Milestone
  | [], _, _, milestones => milestones
  | t :: rest, i, cumulative, milestones =>
    let cumulative2 := cumulative + (t.estimated_minutes : ℚ) / 60
    if 4 ≤ cumulative2 ∨ t.priority = .critical then
      identifyMilestonesAux rest (i+1) 0
        (milestones ++
          [{ name := "Milestone " ++ toString (milestones.length + 1) ++ ": " ++ t.title,
             task_count := i + 1, cumulative_hours := cumulative2 }])
    else
      identifyMilestonesAux rest (i+1) cumulative2 milestones

/-- Embedding of `WorkPlanner._identify_milestones`. -/
def identify_milestones (tasks : List WorkTask) : List Milestone :=
  identifyMilestonesAux tasks 0 0 []

/-- The recursive closure `find_longest_chain(task_id, current_chain)` of
`_find_critical_path`, threading the nonlocal `max_chain` accumulator.  The
fuel dominates the source recursion depth whenever the source recursion
terminates; the actual entry points below never recurse at all, because they
start at dependency-free tasks. -/
def findLongestChain (tasks : List WorkTask) :
    Nat → String → List String → List String → List String
  | 0, _, _, maxChain => maxChain
  | fuel+1, task_id, currentChain, maxChain =>
    match tasks.find? (fun t => t.id == task_id) with
    | none => maxChain
    | some t =>
      let chain2 := currentChain ++ [task_id]
      if t.dependencies = [] then
        if maxChain.length < chain2.length then chain2 else maxChain
      else
        t.dependencies.foldl (fun mc dep => findLongestChain tasks fuel dep chain2 mc) maxChain

/-- Embedding of `WorkPlanner._find_critical_path`: launch `find_longest_chain` from every
task that has no dependencies. -/
def find_critical_path (tasks : List WorkTask) : List String :=
  tasks.foldl
    (fun mc t =>
      if t.dependencies = [] then findLongestChain tasks (tasks.length + 1) t.id [] mc
      else mc)
    []

/-- Embedding of `WorkPlanner.estimate_timeline` (called with a work plan; every field is
computed from `sorted_tasks = self._topological_sort(work_plan.tasks)`). -/
def estimate_timeline (work_plan : WorkPlan) : Timeline :=
  let sorted_tasks := topological_sort work_plan.tasks
  { sequential_hours := (minutesSum sorted_tasks : ℚ) / 60
    parallel_estimate := calculate_parallel_timeline sorted_tasks
    milestones := identify_milestones sorted_tasks
    critical_path := find_critical_path sorted_tasks }

/-! ## `WorkPlanner.track_progress` and `_get_next_available_tasks` -/

/-- Python string `<` (lexicographic on code points), on the char lists. -/
def charListLt : List Char → List Char → Bool
  | [], [] => false
  | [], _ :: _ => true
  | _ :: _, [] => false
  | a :: as, b :: bs =>
    if a.toNat < b.toNat then true
    else if b.toNat < a.toNat then false
    else charListLt as bs

def pyStrLt (a b : String) : Bool := charListLt a.data b.data

/-- Stable insertion used to model Python's stable `sorted(..., reverse=True)`:
the inserted element goes in front of the first element whose key is not
strictly greater.  (A stable sort by a total key order has a unique output, so
any stable implementation models `sorted` faithfully.) -/
def sortedInsertDesc (key : WorkTask → String) (a : WorkTask) :
    List WorkTask → List WorkTask
  | [] => [a]
  | b :: l =>
    if pyStrLt (key a) (key b) then b :: sortedInsertDesc key a l else a :: b :: l

/-- Model of `sorted(l, key=key, reverse=True)`: stable, descending by key. -/
def pySortedDesc (key : WorkTask → String) (l : List WorkTask) : List WorkTask :=
  l.foldr (sortedInsertDesc key) []

/-- Embedding of `WorkPlanner._get_next_available_tasks`: pending tasks whose dependencies
are all completed, sorted descending by the *string* `priority.value`. -/
def get_next_available_tasks (work_plan : WorkPlan) : List WorkTask :=
  let completed_task_ids :=
    (work_plan.tasks.filter (fun t => t.status == .completed)).map (fun t => t.id)
  let available_tasks :=
    work_plan.tasks.filter
      (fun t => t.status == .pending && t.dependencies.all (fun d => completed_task_ids.contains d))
  pySortedDesc (fun t => t.priority.value) available_tasks

/-- The progress dict returned by `track_progress`, field names as in the
source dict literal. -/
structure Progress where
  plan_name : String
  completion_percentage : ℚ
  tasks_completed : Nat
  tasks_total : Nat
  tasks_in_progress : Nat
  tasks_blocked : Nat
  hours_completed : ℚ
  hours_total : ℚ
  next_available_tasks : List WorkTask
deriving DecidableEq, Repr

/-- Lookup in the `self.work_plans` dict. -/
def plansLookup (plans : List (String × WorkPlan)) (k : String) : Option WorkPlan :=
  (plans.find? (fun p => p.1 == k)).map (fun p => p.2)

/-- Embedding of `WorkPlanner.track_progress`.  The method only reads state, so the embedding
returns the planner next to the result; `Except.error` models the
`raise ValueError(f"Work plan not found: {plan_name}")` branch. -/
def track_progress (planner : WorkPlanner) (plan_name : String) :
    WorkPlanner × Except String Progress :=
  match plansLookup planner.work_plans plan_name with
  | none => (planner, Except.error ("Work plan not found: " ++ plan_name))
  | some work_plan =>
    let completed := work_plan.tasks.filter (fun t => t.status == .completed)
    let completed_minutes := minutesSum completed
    let total_minutes := minutesSum work_plan.tasks
    (planner,
      Except.ok
        { plan_name := plan_name
          completion_percentage :=
            if 0 < total_minutes then ((completed_minutes : ℚ) / (total_minutes : ℚ)) * 100
            else 0
          tasks_completed := completed.length
          tasks_total := work_plan.tasks.length
          tasks_in_progress :=
            (work_plan.tasks.filter (fun t => t.status == .in_progress)).length
          tasks_blocked := (work_plan.tasks.filter (fun t => t.status == .blocked)).length
          hours_completed := (completed_minutes : ℚ) / 60
          hours_total := (total_minutes : ℚ) / 60
          next_available_tasks := get_next_available_tasks work_plan })

/-! ## Generic lemmas about paths and cycles -/

theorem pathN_trans {r : String → String → Prop} :
    ∀ {m n : Nat} {a b c : String}, PathN r m a b → PathN r n b c → PathN r (m + n) a c := by
  intro m
  induction m with
  | zero =>
    intro n a b c hab hbc
    cases hab
    simpa using hbc
  | succ m ih =>
    intro n a b c hab hbc
    obtain ⟨d, had, hdb⟩ := hab
    have heq : m + 1 + n = (m + n) + 1 := by omega
    rw [heq]
    exact ⟨d, had, ih hdb hbc⟩

/-- Rank descent along a path, relative to a set `V` on which every edge stays
in `V` and strictly decreases the rank. -/
theorem pathN_rank {r : String → String → Prop} {V : String → Prop} {rank : String → Nat}
    (hV : ∀ x, V x → ∀ y, r x y → V y ∧ rank y < rank x) :
    ∀ {n : Nat} {a b : String}, PathN r n a b → V a → V b ∧ rank b + n ≤ rank a := by
  intro n
  induction n with
  | zero =>
    intro a b hab ha
    cases hab
    exact ⟨ha, by omega⟩
  | succ n ih =>
    intro a b hab ha
    obtain ⟨c, hac, hcb⟩ := hab
    obtain ⟨hc, hlt⟩ := hV a ha c hac
    obtain ⟨hb, hle⟩ := ih hcb hc
    exact ⟨hb, by omega⟩

/-- A globally rank-decreasing relation is acyclic. -/
theorem acyclic_of_rank {r : String → String → Prop} (rank : String → Nat)
    (h : ∀ x y, r x y → rank y < rank x) : Acyclic r := by
  rintro ⟨a, n, hn, hp⟩
  have := @pathN_rank r (fun _ => True) rank
    (fun x _ y hxy => ⟨trivial, h x y hxy⟩) n a a hp trivial
  omega

/-- If every element of a nonempty finite set has an `r`-successor inside the
set, the relation has a cycle (pigeonhole on iterated successors). -/
theorem hasCycle_of_closed {r : String → String → Prop} (S : Finset String)
    (hne : S.Nonempty) (hcl : ∀ a ∈ S, ∃ b ∈ S, r a b) : HasCycle r := by
  classical
  obtain ⟨a0, ha0⟩ := hne
  have hstep : ∀ x : {x // x ∈ S}, ∃ y : {y // y ∈ S}, r x.1 y.1 := by
    rintro ⟨x, hx⟩
    obtain ⟨b, hb, hrb⟩ := hcl x hx
    exact ⟨⟨b, hb⟩, hrb⟩
  choose g hg using hstep
  have hiter : ∀ (k : Nat) (x : {x // x ∈ S}), PathN r k x.1 ((g^[k]) x).1 := by
    intro k
    induction k with
    | zero => intro x; rfl
    | succ k ih =>
      intro x
      exact ⟨(g x).1, hg x, by simpa [Function.iterate_succ_apply] using ih (g x)⟩
  have hcard : Fintype.card {x // x ∈ S} < Fintype.card (Fin (S.card + 1)) := by
    simp [Fintype.card_coe]
  obtain ⟨i, j, hij, hfeq⟩ :=
    Fintype.exists_ne_map_eq_of_card_lt (fun i : Fin (S.card + 1) => (g^[i.1]) ⟨a0, ha0⟩) hcard
  rcases Nat.lt_or_ge i.1 j.1 with hlt | hge
  · refine ⟨((g^[i.1]) ⟨a0, ha0⟩).1, j.1 - i.1, by omega, ?_⟩
    have hsplit : (g^[j.1]) ⟨a0, ha0⟩ = (g^[j.1 - i.1]) ((g^[i.1]) ⟨a0, ha0⟩) := by
      rw [← Function.iterate_add_apply]
      congr 1
      omega
    have hpath := hiter (j.1 - i.1) ((g^[i.1]) ⟨a0, ha0⟩)
    rw [← hsplit, ← hfeq] at hpath
    exact hpath
  · have hlt2 : j.1 < i.1 := by
      rcases Nat.lt_or_ge j.1 i.1 with h | h
      · exact h
      · exact absurd (Fin.val_injective (by omega)) hij
    refine ⟨((g^[j.1]) ⟨a0, ha0⟩).1, i.1 - j.1, by omega, ?_⟩
    have hsplit : (g^[i.1]) ⟨a0, ha0⟩ = (g^[i.1 - j.1]) ((g^[j.1]) ⟨a0, ha0⟩) := by
      rw [← Function.iterate_add_apply]
      congr 1
      omega
    have hpath := hiter (i.1 - j.1) ((g^[j.1]) ⟨a0, ha0⟩)
    rw [← hsplit, hfeq] at hpath
    exact hpath

/-! ## Characterisation of the Kahn building blocks -/

theorem firstKeys_of_nodup : ∀ {l : List String}, l.Nodup → firstKeys l = l := by
  intro l hl
  induction l with
  | nil => rfl
  | cons i rest ih =>
    rw [List.nodup_cons] at hl
    have hrest := ih hl.2
    have hfilt : rest.filter (fun j => j != i) = rest := by
      apply List.filter_eq_self.mpr
      intro a ha
      simp only [bne_iff_ne, ne_eq]
      intro h
      exact hl.1 (h ▸ ha)
    simp [firstKeys, hrest, hfilt]

theorem taskMapFind_eq_some {tasks : List WorkTask} {i : String} {t : WorkTask}
    (h : taskMapFind tasks i = some t) : t ∈ tasks ∧ t.id = i := by
  unfold taskMapFind at h
  have hmem := List.mem_of_find?_eq_some h
  have hpred := List.find?_some h
  exact ⟨(List.mem_reverse).mp hmem, by simpa using hpred⟩

theorem taskMapFind_isSome {tasks : List WorkTask} {i : String}
    (h : i ∈ taskIds tasks) : ∃ t, taskMapFind tasks i = some t := by
  obtain ⟨t, ht, hid⟩ := List.mem_map.mp h
  have : ∃ u ∈ tasks.reverse, (u.id == i) = true :=
    ⟨t, List.mem_reverse.mpr ht, by simp [hid]⟩
  obtain ⟨u, hu⟩ := Option.isSome_iff_exists.mp (List.find?_isSome.mpr this)
  exact ⟨u, hu⟩

/-- With unique ids, two tasks in the list with the same id coincide. -/
theorem eq_of_mem_of_id_eq {tasks : List WorkTask} (h : (taskIds tasks).Nodup)
    {t u : WorkTask} (ht : t ∈ tasks) (hu : u ∈ tasks) (hid : t.id = u.id) : t = u :=
  List.inj_on_of_nodup_map h ht hu hid

theorem taskMapFind_self {tasks : List WorkTask} (h : (taskIds tasks).Nodup)
    {t : WorkTask} (ht : t ∈ tasks) : taskMapFind tasks t.id = some t := by
  obtain ⟨u, hu⟩ := taskMapFind_isSome (List.mem_map_of_mem (fun t2 => t2.id) ht)
  obtain ⟨humem, huid⟩ := taskMapFind_eq_some hu
  rw [hu]
  exact congrArg some (eq_of_mem_of_id_eq h humem ht huid)

theorem filter_id_self {tasks : List WorkTask} (h : (taskIds tasks).Nodup)
    {t : WorkTask} (ht : t ∈ tasks) :
    tasks.filter (fun u => u.id == t.id) = [t] := by
  induction tasks with
  | nil => cases ht
  | cons u ts ih =>
    have hnd : (taskIds ts).Nodup := (List.nodup_cons.mp h).2
    have hhead : u.id ∉ taskIds ts := by
      simpa [taskIds] using (List.nodup_cons.mp h).1
    rcases List.mem_cons.mp ht with rfl | hts
    · have : ts.filter (fun v => v.id == t.id) = [] := by
        apply List.filter_eq_nil_iff.mpr
        intro v hv
        simp only [beq_iff_eq]
        intro hveq
        exact hhead (hveq ▸ List.mem_map_of_mem (fun t2 => t2.id) hv)
      simp [List.filter_cons, this]
    · have hne : (u.id == t.id) = false := by
        simp only [beq_eq_false_iff_ne, ne_eq]
        intro hueq
        exact hhead (hueq ▸ List.mem_map_of_mem (fun t2 => t2.id) hts)
      rw [List.filter_cons, hne]
      simp only [Bool.false_eq_true, if_false]
      exact ih hnd hts

/-- The inner dependency loop of the in-degree initialisation, fully unrolled. -/
theorem initInDegree_inner (ids : List String) (k : String) :
    ∀ (ds : List String) (f : String → Int),
      (ds.foldl
        (fun acc2 d =>
          if d ∈ ids then (fun x => if x = k then acc2 k + 1 else acc2 x) else acc2)
        f) =
      fun x =>
        if x = k then f k + ((ds.filter (fun d => decide (d ∈ ids))).length : Int)
        else f x := by
  intro ds
  induction ds with
  | nil =>
    intro f
    funext x
    by_cases hx : x = k <;> simp [hx]
  | cons d ds ih =>
    intro f
    by_cases hd : d ∈ ids
    · simp only [List.foldl_cons, if_pos hd]
      rw [ih]
      funext x
      by_cases hx : x = k <;>
        simp [hx, List.filter_cons, hd, List.length_cons]
      ring
    · simp only [List.foldl_cons, if_neg hd]
      rw [ih]
      funext x
      by_cases hx : x = k <;> simp [hx, List.filter_cons, hd]

/-- Per-id contribution of a span of tasks to the in-degree dict. -/
def degContrib (ids : List String) (ts : List WorkTask) (y : String) : Nat :=
  ((ts.filter (fun t => t.id == y)).map
    (fun t => (t.dependencies.filter (fun d => decide (d ∈ ids))).length)).sum

theorem initInDegree_outer (tasks : List WorkTask) :
    ∀ (ts : List WorkTask) (f : String → Int) (y : String),
      (ts.foldl
        (fun acc t =>
          t.dependencies.foldl
            (fun acc2 d =>
              if d ∈ taskIds tasks then (fun x => if x = t.id then acc2 t.id + 1 else acc2 x)
              else acc2)
            acc)
        f) y =
      f y + (degContrib (taskIds tasks) ts y : Int) := by
  intro ts
  induction ts with
  | nil => intro f y; simp [degContrib]
  | cons t ts ih =>
    intro f y
    simp only [List.foldl_cons]
    rw [initInDegree_inner (taskIds tasks) t.id t.dependencies f, ih]
    by_cases hy : y = t.id
    · subst hy
      simp [degContrib, List.filter_cons]
      ring
    · have hne : ¬(t.id == y) = true := by simpa using fun h => hy h.symm
      simp [degContrib, List.filter_cons, hne, hy]

theorem initInDegree_eq {tasks : List WorkTask} (h : (taskIds tasks).Nodup)
    {t : WorkTask} (ht : t ∈ tasks) :
    initInDegree tasks t.id =
      ((t.dependencies.filter (fun d => decide (d ∈ taskIds tasks))).length : Int) := by
  unfold initInDegree
  rw [initInDegree_outer tasks tasks (fun _ => 0) t.id]
  have hfilt : tasks.filter (fun u => u.id == t.id) = [t] := filter_id_self h ht
  simp [degContrib, hfilt]

theorem kahnStep_fst (current : String) :
    ∀ (ts : List WorkTask) (indeg : String → Int) (queue : List String) (y : String),
      (taskIds ts).Nodup →
      (kahnStep current ts indeg queue).1 y =
        if ∃ t ∈ ts, t.id = y ∧ current ∈ t.dependencies then indeg y - 1 else indeg y := by
  intro ts
  induction ts with
  | nil => intro indeg queue y _; simp [kahnStep]
  | cons t ts ih =>
    intro indeg queue y hnd
    have hnd2 : (taskIds ts).Nodup := (List.nodup_cons.mp hnd).2
    have hhead : t.id ∉ taskIds ts := by
      simpa [taskIds] using (List.nodup_cons.mp hnd).1
    by_cases hc : current ∈ t.dependencies
    · simp only [kahnStep, if_pos hc]
      rw [ih _ _ y hnd2]
      by_cases hy : y = t.id
      · subst hy
        have hexts : ¬ ∃ u ∈ ts, u.id = t.id ∧ current ∈ u.dependencies := by
          rintro ⟨u, hu, huy, -⟩
          exact hhead (huy ▸ List.mem_map_of_mem (fun t2 => t2.id) hu)
        have hext : ∃ u ∈ t :: ts, u.id = t.id ∧ current ∈ u.dependencies :=
          ⟨t, List.mem_cons_self t ts, rfl, hc⟩
        rw [if_neg hexts, if_pos hext]
        simp
      · have hiff : (∃ u ∈ t :: ts, u.id = y ∧ current ∈ u.dependencies) ↔
            (∃ u ∈ ts, u.id = y ∧ current ∈ u.dependencies) := by
          constructor
          · rintro ⟨u, hu, huy, huc⟩
            rcases List.mem_cons.mp hu with rfl | hu2
            · exact absurd huy.symm hy
            · exact ⟨u, hu2, huy, huc⟩
          · rintro ⟨u, hu, huy, huc⟩
            exact ⟨u, List.mem_cons_of_mem _ hu, huy, huc⟩
        by_cases hex : ∃ u ∈ ts, u.id = y ∧ current ∈ u.dependencies
        · rw [if_pos hex, if_pos (hiff.mpr hex)]
          simp [hy]
        · rw [if_neg hex, if_neg (fun h => hex (hiff.mp h))]
          simp [hy]
    · simp only [kahnStep, if_neg hc]
      rw [ih _ _ y hnd2]
      have hiff : (∃ u ∈ t :: ts, u.id = y ∧ current ∈ u.dependencies) ↔
          (∃ u ∈ ts, u.id = y ∧ current ∈ u.dependencies) := by
        constructor
        · rintro ⟨u, hu, huy, huc⟩
          rcases List.mem_cons.mp hu with rfl | hu2
          · exact absurd huc hc
          · exact ⟨u, hu2, huy, huc⟩
        · rintro ⟨u, hu, huy, huc⟩
          exact ⟨u, List.mem_cons_of_mem _ hu, huy, huc⟩
      by_cases hex : ∃ u ∈ ts, u.id = y ∧ current ∈ u.dependencies
      · rw [if_pos hex, if_pos (hiff.mpr hex)]
      · rw [if_neg hex, if_neg (fun h => hex (hiff.mp h))]

theorem kahnStep_snd (current : String) :
    ∀ (ts : List WorkTask) (indeg : String → Int) (queue : List String),
      (taskIds ts).Nodup →
      (kahnStep current ts indeg queue).2 =
        queue ++
          (ts.filter (fun t => decide (current ∈ t.dependencies) && (indeg t.id == 1))).map
            (fun t => t.id) := by
  intro ts
  induction ts with
  | nil => intro indeg queue _; simp [kahnStep]
  | cons t ts ih =>
    intro indeg queue hnd
    have hnd2 : (taskIds ts).Nodup := (List.nodup_cons.mp hnd).2
    have hhead : t.id ∉ taskIds ts := by
      simpa [taskIds] using (List.nodup_cons.mp hnd).1
    have hcongr : ∀ q : Int,
        ts.filter
          (fun u => decide (current ∈ u.dependencies) &&
            ((if u.id = t.id then q else indeg u.id) == 1)) =
        ts.filter (fun u => decide (current ∈ u.dependencies) && (indeg u.id == 1)) := by
      intro q
      apply List.filter_congr
      intro u hu
      have hne : u.id ≠ t.id := fun h =>
        hhead (h ▸ List.mem_map_of_mem (fun t2 => t2.id) hu)
      simp [hne]
    by_cases hc : current ∈ t.dependencies
    · by_cases hz : indeg t.id - 1 = 0
      · have hone : (indeg t.id == 1) = true := by
          simp only [beq_iff_eq]
          omega
        simp only [kahnStep, if_pos hc, if_pos hz]
        rw [ih _ _ hnd2, hcongr]
        simp [List.filter_cons, hc, hone, List.append_assoc]
      · have hone : (indeg t.id == 1) = false := by
          simp only [beq_eq_false_iff_ne, ne_eq]
          omega
        simp only [kahnStep, if_pos hc, if_neg hz]
        rw [ih _ _ hnd2, hcongr]
        simp [List.filter_cons, hc, hone]
    · simp only [kahnStep, if_neg hc]
      rw [ih _ _ hnd2]
      simp [List.filter_cons, hc]

/-! ## The Kahn loop invariant -/

/-- Every dependency of a scheduled task that refers to an existing id is
scheduled strictly earlier. -/
def DepsBefore (tasks res : List WorkTask) : Prop :=
  ∀ i (h : i < res.length), ∀ d ∈ (res.get ⟨i, h⟩).dependencies,
    d ∈ taskIds tasks → d ∈ taskIds (res.take i)

theorem depsBefore_append {tasks res : List WorkTask} {tc : WorkTask}
    (hdb : DepsBefore tasks res)
    (htc : ∀ d ∈ tc.dependencies, d ∈ taskIds tasks → d ∈ taskIds res) :
    DepsBefore tasks (res ++ [tc]) := by
  intro i h d hd hdids
  have hlen : i < res.length + 1 := by simpa using h
  rcases Nat.lt_or_ge i res.length with hi | hi
  · have hget : (res ++ [tc]).get ⟨i, h⟩ = res.get ⟨i, hi⟩ := by
      simp [List.get_eq_getElem, List.getElem_append_left hi]
    have htake : (res ++ [tc]).take i = res.take i :=
      List.take_append_of_le_length (Nat.le_of_lt hi)
    rw [htake]
    exact hdb i hi d (by rwa [hget] at hd) hdids
  · have hieq : i = res.length := by omega
    subst hieq
    have hget : (res ++ [tc]).get ⟨res.length, h⟩ = tc := by
      simp [List.get_eq_getElem, List.getElem_append_right (Nat.le_refl res.length)]
    have htake : (res ++ [tc]).take res.length = res := List.take_left res [tc]
    rw [htake]
    exact htc d (by rwa [hget] at hd) hdids

/-- Invariant of the Kahn while-loop, for a task set with unique ids. -/
def KahnInv (tasks : List WorkTask) (indeg : String → Int) (queue : List String)
    (result : List WorkTask) : Prop :=
  (taskIds result ++ queue).Nodup ∧
  (∀ i ∈ taskIds result ++ queue, i ∈ taskIds tasks) ∧
  (∀ t ∈ tasks, t.id ∈ queue → ∀ d ∈ t.dependencies, d ∈ taskIds tasks →
    d ∈ taskIds result) ∧
  DepsBefore tasks result ∧
  (∀ t ∈ result, t ∈ tasks) ∧
  (∀ t ∈ tasks, indeg t.id =
    ((t.dependencies.filter
      (fun d => decide (d ∈ taskIds tasks ∧ d ∉ taskIds result))).length : Int)) ∧
  (∀ t ∈ tasks, t.id ∉ taskIds result ++ queue →
    ∃ d ∈ t.dependencies, d ∈ taskIds tasks ∧ d ∉ taskIds result)

theorem kahnInv_step {tasks : List WorkTask} (h1 : (taskIds tasks).Nodup)
    (hdeps : ∀ t ∈ tasks, t.dependencies.Nodup)
    {indeg : String → Int} {current : String} {rest : List String} {result : List WorkTask}
    (hinv : KahnInv tasks indeg (current :: rest) result) :
    ∃ tc, taskMapFind tasks current = some tc ∧ tc.id = current ∧
      KahnInv tasks (kahnStep current tasks indeg rest).1
        (kahnStep current tasks indeg rest).2 (result ++ [tc]) := by
  obtain ⟨hnd, hsub, hq, hdb, hresmem, hdeg, hstuck⟩ := hinv
  have hcur_ids : current ∈ taskIds tasks := hsub current (by simp)
  obtain ⟨tc, htc⟩ := taskMapFind_isSome hcur_ids
  obtain ⟨htc_mem, htc_id⟩ := taskMapFind_eq_some htc
  refine ⟨tc, htc, htc_id, ?_⟩
  obtain ⟨hndR, hndQ, hdisj⟩ := List.nodup_append.mp hnd
  have hcurR : current ∉ taskIds result := fun h => hdisj h (by simp)
  have hR2 : taskIds (result ++ [tc]) = taskIds result ++ [current] := by
    simp [taskIds, htc_id]
  have hsnd := kahnStep_snd current tasks indeg rest h1
  -- the task behind any member of the queue or the result has all its known
  -- dependencies already scheduled
  have factA : ∀ t ∈ tasks, t.id ∈ taskIds result ++ current :: rest →
      ∀ d ∈ t.dependencies, d ∈ taskIds tasks → d ∈ taskIds result := by
    intro t ht hmem d hd hdids
    rcases List.mem_append.mp hmem with hmemR | hmemQ
    · obtain ⟨u, hu, huid⟩ := List.mem_map.mp hmemR
      obtain ⟨⟨i, hlt⟩, hget⟩ := List.mem_iff_get.mp hu
      have hu_tasks : u ∈ tasks := hresmem u hu
      have hut : u = t := eq_of_mem_of_id_eq h1 hu_tasks ht huid
      have hd2 : d ∈ (result.get ⟨i, hlt⟩).dependencies := by
        rw [hget, hut]
        exact hd
      have := hdb i hlt d hd2 hdids
      exact List.map_subset (fun t2 => t2.id) (List.take_subset i result) this
    · exact hq t ht hmemQ d hd hdids
  -- any task that still depends on `current` was neither scheduled nor queued
  have factB : ∀ t ∈ tasks, current ∈ t.dependencies →
      t.id ∉ taskIds result ++ current :: rest := by
    intro t ht hcd hmem
    exact hcurR (factA t ht hmem current hcd hcur_ids)
  -- membership description of the newly enqueued ids
  have hnewly : ∀ y,
      (y ∈ (tasks.filter
        (fun t => decide (current ∈ t.dependencies) && (indeg t.id == 1))).map
          (fun t => t.id)) ↔
      ∃ t ∈ tasks, t.id = y ∧ current ∈ t.dependencies ∧ indeg t.id = 1 := by
    intro y
    constructor
    · intro hy
      obtain ⟨t, htf, hid⟩ := List.mem_map.mp hy
      obtain ⟨htmem, hcond⟩ := List.mem_filter.mp htf
      obtain ⟨hcd, hone⟩ := Bool.and_eq_true_iff.mp hcond
      exact ⟨t, htmem, hid, by simpa using hcd, by simpa using hone⟩
    · rintro ⟨t, htmem, hid, hcd, hone⟩
      exact List.mem_map.mpr ⟨t, List.mem_filter.mpr ⟨htmem, by simp [hcd, hone]⟩, hid⟩
  -- a task in the queue or the result has in-degree count zero
  have factC : ∀ t ∈ tasks, t.id ∈ taskIds result ++ current :: rest →
      (t.dependencies.filter
        (fun d => decide (d ∈ taskIds tasks ∧ d ∉ taskIds result))) = [] := by
    intro t ht hmem
    apply List.filter_eq_nil_iff.mpr
    intro d hd
    simp only [decide_eq_true_eq, not_and, not_not]
    intro hdids
    exact factA t ht hmem d hd hdids
  -- hence a newly enqueued id is fresh
  have hnewly_fresh : ∀ y,
      (∃ t ∈ tasks, t.id = y ∧ current ∈ t.dependencies ∧ indeg t.id = 1) →
      y ∉ taskIds result ++ current :: rest := by
    rintro y ⟨t, htmem, rfl, hcd, -⟩
    exact factB t htmem hcd
  -- the new result-id list extends the old one by `current`
  refine ⟨?_, ?_, ?_, ?_, ?_, ?_, ?_⟩
  · -- Nodup
    rw [hR2, hsnd, ← List.append_assoc]
    apply List.nodup_append.mpr
    refine ⟨?_, ?_, ?_⟩
    · rw [← List.append_cons]
      exact hnd
    · have h1m : (List.map (fun t2 : WorkTask => t2.id) tasks).Nodup := h1
      exact ((List.filter_sublist tasks).map (fun t2 : WorkTask => t2.id)).nodup h1m
    · intro y hy hyN
      apply hnewly_fresh y ((hnewly y).mp hyN)
      rw [← List.append_cons] at hy
      exact hy
  · -- membership in the task-id universe
    intro i hi
    rw [hR2, hsnd] at hi
    rcases List.mem_append.mp hi with h | h
    · rcases List.mem_append.mp h with h2 | h2
      · exact hsub i (List.mem_append.mpr (Or.inl h2))
      · simp only [List.mem_singleton] at h2
        exact h2 ▸ hcur_ids
    · rcases List.mem_append.mp h with h2 | h2
      · exact hsub i (List.mem_append.mpr (Or.inr (List.mem_cons_of_mem current h2)))
      · obtain ⟨t, htmem, hid, -, -⟩ := (hnewly i).mp h2
        exact hid ▸ List.mem_map_of_mem (fun t2 => t2.id) htmem
  · -- queued tasks have all known dependencies scheduled
    intro t ht hmem d hd hdids
    rw [hsnd] at hmem
    rw [hR2, List.mem_append]
    rcases List.mem_append.mp hmem with h2 | h2
    · exact Or.inl (hq t ht (List.mem_cons_of_mem current h2) d hd hdids)
    · obtain ⟨u, humem, huid, hucd, huone⟩ := (hnewly t.id).mp h2
      have hut : u = t := eq_of_mem_of_id_eq h1 humem ht huid
      subst hut
      -- in-degree one plus `current ∈ deps` forces the pending filter to be `[current]`
      have hFone : (u.dependencies.filter
          (fun d2 => decide (d2 ∈ taskIds tasks ∧ d2 ∉ taskIds result))).length = 1 := by
        have h := hdeg u humem
        rw [huone] at h
        exact_mod_cast h.symm
      obtain ⟨a, hFa⟩ := List.length_eq_one.mp hFone
      have hcurF : current ∈ u.dependencies.filter
          (fun d2 => decide (d2 ∈ taskIds tasks ∧ d2 ∉ taskIds result)) := by
        apply List.mem_filter.mpr
        refine ⟨hucd, ?_⟩
        simp only [decide_eq_true_eq]
        exact ⟨hcur_ids, hcurR⟩
      rw [hFa] at hcurF
      have hac : a = current := (List.mem_singleton.mp hcurF).symm
      subst hac
      by_cases hdR : d ∈ taskIds result
      · exact Or.inl hdR
      · have hdF : d ∈ u.dependencies.filter
            (fun d2 => decide (d2 ∈ taskIds tasks ∧ d2 ∉ taskIds result)) := by
          apply List.mem_filter.mpr
          refine ⟨hd, ?_⟩
          simp only [decide_eq_true_eq]
          exact ⟨hdids, hdR⟩
        rw [hFa] at hdF
        exact Or.inr hdF
  · -- dependencies of scheduled tasks stay behind them
    apply depsBefore_append hdb
    intro d hd hdids
    exact factA tc htc_mem (by simp [htc_id]) d hd hdids
  · -- scheduled tasks come from the task set
    intro t ht
    rcases List.mem_append.mp ht with h2 | h2
    · exact hresmem t h2
    · simp only [List.mem_singleton] at h2
      exact h2 ▸ htc_mem
  · -- the in-degree dict tracks the pending known dependencies
    intro t ht
    simp only [hR2]
    rw [kahnStep_fst current tasks indeg rest t.id h1]
    have hiff : (∃ u ∈ tasks, u.id = t.id ∧ current ∈ u.dependencies) ↔
        current ∈ t.dependencies := by
      constructor
      · rintro ⟨u, hu, huid, huc⟩
        rwa [eq_of_mem_of_id_eq h1 hu ht huid] at huc
      · intro h
        exact ⟨t, ht, rfl, h⟩
    by_cases hct : current ∈ t.dependencies
    · rw [if_pos (hiff.mpr hct), hdeg t ht]
      have hsplit : t.dependencies.filter
          (fun d => decide (d ∈ taskIds tasks ∧ d ∉ taskIds result ++ [current])) =
          (t.dependencies.filter
            (fun d => decide (d ∈ taskIds tasks ∧ d ∉ taskIds result))).filter
            (fun d => d != current) := by
        rw [List.filter_filter]
        apply List.filter_congr
        intro d hd
        by_cases h1d : d ∈ taskIds tasks <;> by_cases h2d : d ∈ taskIds result <;>
          by_cases h3d : d = current <;> simp [h1d, h2d, h3d]
      have hnd_F : (t.dependencies.filter
          (fun d => decide (d ∈ taskIds tasks ∧ d ∉ taskIds result))).Nodup :=
        (hdeps t ht).filter _
      have hcurF : current ∈ t.dependencies.filter
          (fun d => decide (d ∈ taskIds tasks ∧ d ∉ taskIds result)) := by
        apply List.mem_filter.mpr
        refine ⟨hct, ?_⟩
        simp only [decide_eq_true_eq]
        exact ⟨hcur_ids, hcurR⟩
      have hlen : ((t.dependencies.filter
          (fun d => decide (d ∈ taskIds tasks ∧ d ∉ taskIds result))).filter
            (fun d => d != current)).length + 1 =
          (t.dependencies.filter
            (fun d => decide (d ∈ taskIds tasks ∧ d ∉ taskIds result))).length := by
        rw [← List.Nodup.erase_eq_filter hnd_F current]
        exact List.length_erase_add_one hcurF
      rw [hsplit]
      omega
    · rw [if_neg (fun h => hct (hiff.mp h)), hdeg t ht]
      have heq : t.dependencies.filter
          (fun d => decide (d ∈ taskIds tasks ∧ d ∉ taskIds result ++ [current])) =
          t.dependencies.filter
            (fun d => decide (d ∈ taskIds tasks ∧ d ∉ taskIds result)) := by
        apply List.filter_congr
        intro d hd
        have hdc : d ≠ current := fun h => hct (h ▸ hd)
        by_cases h1d : d ∈ taskIds tasks <;> by_cases h2d : d ∈ taskIds result <;>
          simp [h1d, h2d, hdc]
      rw [heq]
  · -- unreached tasks still wait for an unscheduled known dependency
    intro t ht hmem
    rw [hR2, hsnd] at hmem
    simp only [List.mem_append, List.mem_singleton, not_or] at hmem
    obtain ⟨⟨hmemR, hmemC⟩, hmemRest, hmemNew⟩ := hmem
    have hmem_old : t.id ∉ taskIds result ++ current :: rest := by
      simp only [List.mem_append, List.mem_cons, not_or]
      exact ⟨hmemR, hmemC, hmemRest⟩
    obtain ⟨d0, hd0, hd0ids, hd0R⟩ := hstuck t ht hmem_old
    by_cases hct : current ∈ t.dependencies
    · have hcurF : current ∈ t.dependencies.filter
          (fun d => decide (d ∈ taskIds tasks ∧ d ∉ taskIds result)) := by
        apply List.mem_filter.mpr
        refine ⟨hct, ?_⟩
        simp only [decide_eq_true_eq]
        exact ⟨hcur_ids, hcurR⟩
      have hne1 : indeg t.id ≠ 1 := by
        intro h
        exact hmemNew ((hnewly t.id).mpr ⟨t, ht, rfl, hct, h⟩)
      have hlenF : 2 ≤ (t.dependencies.filter
          (fun d => decide (d ∈ taskIds tasks ∧ d ∉ taskIds result))).length := by
        have h := hdeg t ht
        have hpos : 0 < (t.dependencies.filter
            (fun d => decide (d ∈ taskIds tasks ∧ d ∉ taskIds result))).length :=
          List.length_pos_of_mem hcurF
        have : indeg t.id ≠ 1 := hne1
        omega
      have hnd_F : (t.dependencies.filter
          (fun d => decide (d ∈ taskIds tasks ∧ d ∉ taskIds result))).Nodup :=
        (hdeps t ht).filter _
      have hlen : ((t.dependencies.filter
          (fun d => decide (d ∈ taskIds tasks ∧ d ∉ taskIds result))).filter
            (fun d => d != current)).length + 1 =
          (t.dependencies.filter
            (fun d => decide (d ∈ taskIds tasks ∧ d ∉ taskIds result))).length := by
        rw [← List.Nodup.erase_eq_filter hnd_F current]
        exact List.length_erase_add_one hcurF
      have hpos2 : 0 < ((t.dependencies.filter
          (fun d => decide (d ∈ taskIds tasks ∧ d ∉ taskIds result))).filter
            (fun d => d != current)).length := by omega
      obtain ⟨d, hdmem⟩ := List.exists_mem_of_length_pos hpos2
      obtain ⟨hdF, hdne⟩ := List.mem_filter.mp hdmem
      obtain ⟨hddep, hdprop⟩ := List.mem_filter.mp hdF
      simp only [decide_eq_true_eq] at hdprop
      refine ⟨d, hddep, hdprop.1, ?_⟩
      rw [hR2]
      simp only [List.mem_append, List.mem_singleton, not_or]
      exact ⟨hdprop.2, by simpa using hdne⟩
    · refine ⟨d0, hd0, hd0ids, ?_⟩
      have hd0c : d0 ≠ current := fun h => hct (h ▸ hd0)
      rw [hR2]
      simp only [List.mem_append, List.mem_singleton, not_or]
      exact ⟨hd0R, hd0c⟩

theorem nodup_subset_length_le {l m : List String} (h : l.Nodup) (hs : l ⊆ m) :
    l.length ≤ m.length := by
  classical
  have h1 : l.toFinset.card = l.length := List.toFinset_card_of_nodup h
  have h2 : l.toFinset ⊆ m.toFinset := by
    intro a ha
    rw [List.mem_toFinset] at ha ⊢
    exact hs ha
  have h3 : m.toFinset.card ≤ m.length := m.toFinset_card_le
  have h4 := Finset.card_le_card h2
  omega

/-- The facts that hold of the list returned by the Kahn loop. -/
def KahnFinal (tasks res : List WorkTask) : Prop :=
  (taskIds res).Nodup ∧
  (∀ i ∈ taskIds res, i ∈ taskIds tasks) ∧
  (∀ t ∈ res, t ∈ tasks) ∧
  DepsBefore tasks res ∧
  (∀ t ∈ tasks, t.id ∉ taskIds res →
    ∃ d ∈ t.dependencies, d ∈ taskIds tasks ∧ d ∉ taskIds res)

theorem kahnLoop_spec {tasks : List WorkTask} (h1 : (taskIds tasks).Nodup)
    (hdeps : ∀ t ∈ tasks, t.dependencies.Nodup) :
    ∀ (fuel : Nat) (indeg : String → Int) (queue : List String) (result : List WorkTask),
      KahnInv tasks indeg queue result →
      tasks.length - result.length < fuel →
      KahnFinal tasks (kahnLoop tasks fuel indeg queue result) := by
  intro fuel
  induction fuel with
  | zero =>
    intro indeg queue result hinv hfuel
    exact absurd hfuel (by omega)
  | succ fuel ih =>
    intro indeg queue result hinv hfuel
    match queue with
    | [] =>
      obtain ⟨hnd, hsub, hq, hdb, hresmem, hdeg, hstuck⟩ := hinv
      show KahnFinal tasks result
      refine ⟨by simpa using hnd, ?_, hresmem, hdb, ?_⟩
      · intro i hi
        exact hsub i (by simpa using hi)
      · intro t ht hmem
        exact hstuck t ht (by simpa using hmem)
    | current :: rest =>
      obtain ⟨tc, htc, htc_id, hinv2⟩ := kahnInv_step h1 hdeps hinv
      have hstep : kahnLoop tasks (fuel+1) indeg (current :: rest) result =
          kahnLoop tasks fuel (kahnStep current tasks indeg rest).1
            (kahnStep current tasks indeg rest).2 (result ++ [tc]) := by
        simp [kahnLoop, htc]
      rw [hstep]
      apply ih _ _ _ hinv2
      obtain ⟨hnd, hsub, -, -, -, -, -⟩ := hinv
      have hlen : (taskIds result ++ current :: rest).length ≤ (taskIds tasks).length :=
        nodup_subset_length_le hnd hsub
      simp only [List.length_append, List.length_cons, taskIds, List.length_map] at hlen
      simp only [List.length_append, List.length_cons, List.length_nil]
      omega

theorem kahnInv_init {tasks : List WorkTask} (h1 : (taskIds tasks).Nodup) :
    KahnInv tasks (initInDegree tasks) (initQueue tasks (initInDegree tasks)) [] := by
  have hQ : initQueue tasks (initInDegree tasks) =
      (taskIds tasks).filter (fun i => initInDegree tasks i == 0) := by
    unfold initQueue
    rw [firstKeys_of_nodup h1]
  have hfconv : ∀ t ∈ tasks,
      t.dependencies.filter (fun d => decide (d ∈ taskIds tasks ∧ d ∉ taskIds ([] : List WorkTask))) =
      t.dependencies.filter (fun d => decide (d ∈ taskIds tasks)) := by
    intro t ht
    apply List.filter_congr
    intro d hd
    simp [taskIds]
  constructor
  · rw [hQ]
    simpa using h1.filter (fun i => initInDegree tasks i == 0)
  constructor
  · intro i hi
    rw [hQ] at hi
    simp only [taskIds, List.map_nil, List.nil_append] at hi
    exact List.mem_of_mem_filter hi
  constructor
  · intro t ht hmem d hd hdids
    rw [hQ] at hmem
    have hz : (initInDegree tasks t.id == 0) = true := (List.mem_filter.mp hmem).2
    have hz2 : initInDegree tasks t.id = 0 := by simpa using hz
    rw [initInDegree_eq h1 ht] at hz2
    have hnil : t.dependencies.filter (fun d2 => decide (d2 ∈ taskIds tasks)) = [] := by
      have : (t.dependencies.filter (fun d2 => decide (d2 ∈ taskIds tasks))).length = 0 := by
        exact_mod_cast hz2
      exact List.length_eq_zero.mp this
    exfalso
    have : d ∈ t.dependencies.filter (fun d2 => decide (d2 ∈ taskIds tasks)) :=
      List.mem_filter.mpr ⟨hd, by simpa using hdids⟩
    rw [hnil] at this
    exact List.not_mem_nil d this
  constructor
  · intro i h
    simp only [List.length_nil] at h
    exact absurd h (by omega)
  constructor
  · intro t ht
    exact absurd ht (List.not_mem_nil t)
  constructor
  · intro t ht
    rw [hfconv t ht]
    exact initInDegree_eq h1 ht
  · intro t ht hmem
    rw [hQ] at hmem
    simp only [taskIds, List.map_nil, List.nil_append] at hmem
    have hne : ¬ (initInDegree tasks t.id == 0) = true := by
      intro h
      exact hmem (List.mem_filter.mpr ⟨List.mem_map_of_mem (fun t2 => t2.id) ht, h⟩)
    have hne2 : initInDegree tasks t.id ≠ 0 := by simpa using hne
    rw [initInDegree_eq h1 ht] at hne2
    have hpos : 0 < (t.dependencies.filter (fun d => decide (d ∈ taskIds tasks))).length := by
      rcases Nat.eq_zero_or_pos (t.dependencies.filter
        (fun d => decide (d ∈ taskIds tasks))).length with h | h
      · exact absurd (by exact_mod_cast h) hne2
      · exact h
    obtain ⟨d, hdmem⟩ := List.exists_mem_of_length_pos hpos
    obtain ⟨hddep, hdids⟩ := List.mem_filter.mp hdmem
    exact ⟨d, hddep, by simpa using hdids, by simp [taskIds]⟩

/-- The list returned by `_topological_sort` on a task set with unique ids and
duplicate-free dependency lists: ids are unique, tasks come from the input,
known dependencies precede their task, and any omitted task still waits on an
omitted known dependency. -/
theorem topological_sort_spec {tasks : List WorkTask} (h1 : (taskIds tasks).Nodup)
    (hdeps : ∀ t ∈ tasks, t.dependencies.Nodup) :
    KahnFinal tasks (topological_sort tasks) := by
  apply kahnLoop_spec h1 hdeps _ _ _ _ (kahnInv_init h1)
  simp only [List.length_nil]
  omega

/-- On an acyclic task set every task gets scheduled. -/
theorem topological_sort_complete {tasks : List WorkTask} (h1 : (taskIds tasks).Nodup)
    (hdeps : ∀ t ∈ tasks, t.dependencies.Nodup) (hacyc : Acyclic (Edge tasks)) :
    ∀ t ∈ tasks, t.id ∈ taskIds (topological_sort tasks) := by
  classical
  obtain ⟨hnd, hsub, hmem, hdb, hstuck⟩ := topological_sort_spec h1 hdeps
  by_contra hcon
  push_neg at hcon
  obtain ⟨t0, ht0, ht0n⟩ := hcon
  apply hacyc
  apply hasCycle_of_closed
    ((taskIds tasks).toFinset \ (taskIds (topological_sort tasks)).toFinset)
  · refine ⟨t0.id, ?_⟩
    rw [Finset.mem_sdiff, List.mem_toFinset, List.mem_toFinset]
    exact ⟨List.mem_map_of_mem (fun t2 => t2.id) ht0, ht0n⟩
  · intro a ha
    rw [Finset.mem_sdiff, List.mem_toFinset, List.mem_toFinset] at ha
    obtain ⟨haids, hanot⟩ := ha
    obtain ⟨u, hu, huid⟩ := List.mem_map.mp haids
    obtain ⟨d, hd, hdids, hdnot⟩ := hstuck u hu (by rw [huid]; exact hanot)
    refine ⟨d, ?_, ⟨u, hu, huid, hd⟩⟩
    rw [Finset.mem_sdiff, List.mem_toFinset, List.mem_toFinset]
    exact ⟨hdids, hdnot⟩

/-- On an acyclic task set the schedule is a permutation of the input. -/
theorem topological_sort_perm {tasks : List WorkTask} (h1 : (taskIds tasks).Nodup)
    (hdeps : ∀ t ∈ tasks, t.dependencies.Nodup) (hacyc : Acyclic (Edge tasks)) :
    (topological_sort tasks).Perm tasks := by
  obtain ⟨hnd, hsub, hmem, hdb, hstuck⟩ := topological_sort_spec h1 hdeps
  have hcomplete := topological_sort_complete h1 hdeps hacyc
  have hnd_res : (topological_sort tasks).Nodup := by
    have hm : (List.map (fun t2 : WorkTask => t2.id) (topological_sort tasks)).Nodup := hnd
    exact List.Nodup.of_map _ hm
  have hnd_tasks : tasks.Nodup := by
    have hm : (List.map (fun t2 : WorkTask => t2.id) tasks).Nodup := h1
    exact List.Nodup.of_map _ hm
  rw [List.perm_ext_iff_of_nodup hnd_res hnd_tasks]
  intro t
  constructor
  · exact fun ht => hmem t ht
  · intro ht
    obtain ⟨u, hu, huid⟩ := List.mem_map.mp (hcomplete t ht)
    have hut : u = t := eq_of_mem_of_id_eq h1 (hmem u hu) ht huid
    exact hut ▸ hu

/-- Every scheduled task sits at a strictly larger index than each of its
dependencies (assuming dependency ids refer to tasks of the set). -/
theorem topological_sort_index_lt {tasks : List WorkTask} (h1 : (taskIds tasks).Nodup)
    (hdeps : ∀ t ∈ tasks, t.dependencies.Nodup)
    (hclosed : ∀ t ∈ tasks, ∀ d ∈ t.dependencies, d ∈ taskIds tasks) :
    ∀ i j (hi : i < (topological_sort tasks).length)
      (hj : j < (topological_sort tasks).length),
      ((topological_sort tasks).get ⟨j, hj⟩).id ∈
        ((topological_sort tasks).get ⟨i, hi⟩).dependencies → j < i := by
  obtain ⟨hnd, hsub, hmem, hdb, hstuck⟩ := topological_sort_spec h1 hdeps
  intro i j hi hj hdep
  have hti : (topological_sort tasks).get ⟨i, hi⟩ ∈ tasks :=
    hmem _ (List.get_mem _ i hi)
  have hdid : ((topological_sort tasks).get ⟨j, hj⟩).id ∈ taskIds tasks :=
    hclosed _ hti _ hdep
  have htake := hdb i hi _ hdep hdid
  obtain ⟨u, hu, huid⟩ := List.mem_map.mp htake
  obtain ⟨⟨k, hk⟩, hgetk⟩ := List.mem_iff_get.mp hu
  have hk2 : k < i := by
    have := hk
    simp only [List.length_take] at this
    omega
  have hkres : k < (topological_sort tasks).length := by omega
  have hgetk2 : (topological_sort tasks).get ⟨k, hkres⟩ = u := by
    rw [← hgetk]
    simp only [List.get_eq_getElem]
    exact (List.getElem_take _).symm
  have hkj : k = j := by
    have hmk : k < (taskIds (topological_sort tasks)).length := by
      simp only [taskIds, List.length_map]
      omega
    have hmj : j < (taskIds (topological_sort tasks)).length := by
      simp only [taskIds, List.length_map]
      omega
    have hgeteq : (taskIds (topological_sort tasks)).get ⟨k, hmk⟩ =
        (taskIds (topological_sort tasks)).get ⟨j, hmj⟩ := by
      simp only [taskIds, List.get_eq_getElem, List.getElem_map]
      rw [show (topological_sort tasks)[k] = u from hgetk2, huid]
      rfl
    have := (List.Nodup.get_inj_iff hnd).mp hgeteq
    exact congrArg Fin.val this
  omega

/-- A task lying on a dependency cycle is never scheduled. -/
theorem cycle_node_not_scheduled {tasks : List WorkTask} (h1 : (taskIds tasks).Nodup)
    (hdeps : ∀ t ∈ tasks, t.dependencies.Nodup) :
    ∀ n, 0 < n → ∀ x, PathN (Edge tasks) n x x →
      x ∉ taskIds (topological_sort tasks) := by
  obtain ⟨hnd, hsub, hmem, hdb, hstuck⟩ := topological_sort_spec h1 hdeps
  suffices haux : ∀ i, ∀ (hi : i < (topological_sort tasks).length), ∀ n, 0 < n → ∀ x,
      PathN (Edge tasks) n x x →
      ((topological_sort tasks).get ⟨i, hi⟩).id = x → False by
    intro n hn x hp hxmem
    obtain ⟨u, hu, huid⟩ := List.mem_map.mp hxmem
    obtain ⟨⟨i, hi⟩, hget⟩ := List.mem_iff_get.mp hu
    exact haux i hi n hn x hp (by rw [hget]; exact huid)
  intro i
  induction i using Nat.strong_induction_on with
  | _ i ih =>
    intro hi n hn x hp hxid
    match n, hn with
    | m + 1, _ =>
      obtain ⟨c, hxc, hcx⟩ := hp
      have hccyc : PathN (Edge tasks) (m + 1) c c := pathN_trans hcx ⟨c, hxc, rfl⟩
      have hccyc2 := hccyc
      obtain ⟨d2, hcd2, -⟩ := hccyc2
      obtain ⟨u2, hu2, hu2id, -⟩ := hcd2
      have hcids : c ∈ taskIds tasks := hu2id ▸ List.mem_map_of_mem (fun t2 => t2.id) hu2
      obtain ⟨u, hu, huid, hcdep⟩ := hxc
      have hresmem_i : (topological_sort tasks).get ⟨i, hi⟩ ∈ tasks :=
        hmem _ (List.get_mem _ i hi)
      have hueq : (topological_sort tasks).get ⟨i, hi⟩ = u :=
        eq_of_mem_of_id_eq h1 hresmem_i hu (by rw [hxid, huid])
      have hcdep2 : c ∈ ((topological_sort tasks).get ⟨i, hi⟩).dependencies := by
        rw [hueq]
        exact hcdep
      have hctake := hdb i hi c hcdep2 hcids
      obtain ⟨v, hv, hvid⟩ := List.mem_map.mp hctake
      obtain ⟨⟨k, hk⟩, hgetk⟩ := List.mem_iff_get.mp hv
      have hk2 : k < i := by
        have := hk
        simp only [List.length_take] at this
        omega
      have hkres : k < (topological_sort tasks).length := by omega
      have hgetidc : ((topological_sort tasks).get ⟨k, hkres⟩).id = c := by
        have hgetk2 : (topological_sort tasks).get ⟨k, hkres⟩ = v := by
          rw [← hgetk]
          simp only [List.get_eq_getElem]
          exact (List.getElem_take _).symm
        rw [hgetk2]
        exact hvid
      exact ih k hk2 hkres (m + 1) (by omega) c hccyc hgetidc

/-- On a cyclic task set the schedule is strictly shorter than the input: the
cycle's tasks are silently dropped. -/
theorem topological_sort_omits_cycle {tasks : List WorkTask} (h1 : (taskIds tasks).Nodup)
    (hdeps : ∀ t ∈ tasks, t.dependencies.Nodup) (hcyc : HasCycle (Edge tasks)) :
    (topological_sort tasks).length < tasks.length := by
  classical
  obtain ⟨x, n, hn, hp⟩ := hcyc
  have hxnot := cycle_node_not_scheduled h1 hdeps n hn x hp
  have hxids : x ∈ taskIds tasks := by
    match n, hn with
    | m + 1, _ =>
      obtain ⟨c, hxc, -⟩ := hp
      obtain ⟨u, hu, huid, -⟩ := hxc
      exact huid ▸ List.mem_map_of_mem (fun t2 => t2.id) hu
  obtain ⟨hnd, hsub, -, -, -⟩ := topological_sort_spec h1 hdeps
  have hss : (taskIds (topological_sort tasks)).toFinset ⊂ (taskIds tasks).toFinset := by
    constructor
    · intro a ha
      rw [List.mem_toFinset] at ha ⊢
      exact hsub a ha
    · intro hcontra
      have := hcontra (List.mem_toFinset.mpr hxids)
      exact hxnot (List.mem_toFinset.mp this)
  have hcard := Finset.card_lt_card hss
  rw [List.toFinset_card_of_nodup hnd, List.toFinset_card_of_nodup h1] at hcard
  simpa [taskIds] using hcard

/-! ## Invariants of the DFS cycle detection -/

theorem mem_depsConcat {g : DepGraph} {p : String × List String} (hp : p ∈ g) :
    ∀ d ∈ p.2, d ∈ depsConcat g := by
  induction g with
  | nil => cases hp
  | cons q rest ih =>
    intro d hd
    rcases List.mem_cons.mp hp with rfl | h2
    · exact List.mem_append.mpr (Or.inl hd)
    · exact List.mem_append.mpr (Or.inr (ih h2 d hd))

theorem get_subset_allNodes (g : DepGraph) (node : String) :
    ∀ d ∈ DepGraph.get g node, d ∈ allNodes g := by
  intro d hd
  unfold DepGraph.get at hd
  rcases hfind : g.find? (fun p => p.1 == node) with _ | p
  · rw [hfind] at hd
    cases hd
  · rw [hfind] at hd
    have hp : p ∈ g := List.mem_of_find?_eq_some hfind
    exact List.mem_append.mpr (Or.inr (mem_depsConcat hp d hd))

theorem keys_subset_allNodes (g : DepGraph) : ∀ k ∈ DepGraph.keys g, k ∈ allNodes g :=
  fun k hk => List.mem_append.mpr (Or.inl hk)

theorem edge_mem_keys {g : DepGraph} {a b : String} (h : GEdge g a b) :
    a ∈ DepGraph.keys g := by
  unfold GEdge DepGraph.get at h
  rcases hfind : g.find? (fun p => p.1 == a) with _ | p
  · rw [hfind] at h
    cases h
  · have hp : p ∈ g := List.mem_of_find?_eq_some hfind
    have hpa : p.1 = a := by simpa using List.find?_some hfind
    exact hpa ▸ List.mem_map_of_mem (fun q => q.1) hp

theorem le_foldr_max : ∀ (l : List Nat) (a : Nat), a ∈ l → a ≤ l.foldr max 0 := by
  intro l
  induction l with
  | nil => intro a ha; cases ha
  | cons b l ih =>
    intro a ha
    rcases List.mem_cons.mp ha with rfl | h2
    · exact Nat.le_max_left _ _
    · exact le_trans (ih a h2) (Nat.le_max_right _ _)

theorem cardRem_mono {U : Finset String} {v w : List String} (h : v ⊆ w) :
    (U \ w.toFinset).card ≤ (U \ v.toFinset).card := by
  apply Finset.card_le_card
  apply Finset.sdiff_subset_sdiff (le_refl U)
  intro a ha
  rw [List.mem_toFinset] at ha ⊢
  exact h ha

theorem cardRem_cons {U : Finset String} {visited : List String} {node : String}
    (hU : node ∈ U) (hV : node ∉ visited) :
    (U \ (node :: visited).toFinset).card + 1 ≤ (U \ visited.toFinset).card := by
  classical
  have hmem : node ∈ U \ visited.toFinset :=
    Finset.mem_sdiff.mpr ⟨hU, by rw [List.mem_toFinset]; exact hV⟩
  have h1 : U \ (node :: visited).toFinset ⊆ (U \ visited.toFinset).erase node := by
    intro a ha
    rw [List.toFinset_cons] at ha
    rw [Finset.mem_erase]
    rw [Finset.mem_sdiff] at ha ⊢
    rw [Finset.mem_insert] at ha
    exact ⟨fun h => ha.2 (Or.inl h), ha.1, fun h => ha.2 (Or.inr h)⟩
  have h2 := Finset.card_erase_of_mem hmem
  have h3 := Finset.card_le_card h1
  have h4 : 0 < (U \ visited.toFinset).card := Finset.card_pos.mpr ⟨node, hmem⟩
  omega

/-- Nodes that are visited but off the recursion stack are "finished": all
their out-edges lead to finished nodes of strictly smaller rank. -/
def RankedClosed (g : DepGraph) (v r : List String) : Prop :=
  ∃ rank : String → Nat, ∀ x, x ∈ v → x ∉ r →
    ∀ y ∈ DepGraph.get g x, y ∈ v ∧ y ∉ r ∧ rank y < rank x

def GoodState (g : DepGraph) (v r : List String) : Prop :=
  r ⊆ v ∧ RankedClosed g v r

/-- Postcondition of a `has_cycle` call that returns `False`. -/
def DfsOkD (g : DepGraph) (fuel : Nat) : Prop :=
  ∀ (node : String) (visited recStack v r : List String),
    node ∉ visited → GoodState g visited recStack →
    hasCycleDfs g fuel node visited recStack = some (false, v, r) →
    r = recStack ∧ visited ⊆ v ∧ node ∈ v ∧ node ∉ recStack ∧ GoodState g v recStack

/-- Postcondition of the neighbour loop of `has_cycle` when it falls through
and returns `False`. -/
def DfsOkN (g : DepGraph) (fuel : Nat) : Prop :=
  ∀ (node : String) (nbs processed visited r0 v r : List String),
    DepGraph.get g node = processed ++ nbs →
    node ∈ visited → node ∉ r0 →
    (∀ y ∈ processed, y ∈ visited ∧ y ∉ node :: r0) →
    GoodState g visited (node :: r0) →
    hasCycleNbrs g fuel node nbs visited (node :: r0) = some (false, v, r) →
    r = r0 ∧ visited ⊆ v ∧ GoodState g v r0

/-- Popping `node` off the recursion stack preserves the ranked-closure
invariant once all of `node`'s neighbours are finished. -/
theorem goodState_finish {g : DepGraph} {visited r0 : List String} {node : String}
    (hGS : GoodState g visited (node :: r0))
    (hnodev : node ∈ visited)
    (hproc : ∀ y ∈ DepGraph.get g node, y ∈ visited ∧ y ∉ node :: r0) :
    GoodState g visited r0 := by
  constructor
  · exact fun a ha => hGS.1 (List.mem_cons_of_mem node ha)
  · obtain ⟨rank, hrank⟩ := hGS.2
    refine ⟨fun x => if x = node then (visited.map rank).foldr max 0 + 1 else rank x, ?_⟩
    intro x hx hxr0 y hy
    by_cases hxn : x = node
    · subst hxn
      obtain ⟨hyv, hynr⟩ := hproc y hy
      have hyne : y ≠ x := fun h => hynr (h ▸ List.mem_cons_self x r0)
      have hynr0 : y ∉ r0 := fun h => hynr (List.mem_cons_of_mem x h)
      refine ⟨hyv, hynr0, ?_⟩
      simp only [if_neg hyne, eq_self_iff_true, if_true]
      have : rank y ≤ (visited.map rank).foldr max 0 :=
        le_foldr_max _ _ (List.mem_map_of_mem rank hyv)
      omega
    · have hxnr : x ∉ node :: r0 := by
        intro h
        rcases List.mem_cons.mp h with h2 | h2
        · exact hxn h2
        · exact hxr0 h2
      obtain ⟨hyv, hynr, hylt⟩ := hrank x hx hxnr y hy
      have hyne : y ≠ node := fun h => hynr (h ▸ List.mem_cons_self node r0)
      have hynr0 : y ∉ r0 := fun h => hynr (List.mem_cons_of_mem node h)
      refine ⟨hyv, hynr0, ?_⟩
      simp only [if_neg hyne, if_neg hxn]
      exact hylt

theorem dfsOkN_of_dfsOkD (g : DepGraph) (fuel : Nat) (hD : DfsOkD g fuel) :
    DfsOkN g fuel := by
  intro node nbs
  induction nbs with
  | nil =>
    intro processed visited r0 v r hget hnodev hnoder0 hproc hGS heq
    rw [show hasCycleNbrs g fuel node [] visited (node :: r0) =
        some (false, visited, r0) from by
      simp [hasCycleNbrs, List.erase_cons_head]] at heq
    simp only [Option.some.injEq, Prod.mk.injEq, true_and] at heq
    obtain ⟨hveq, hreq⟩ := heq
    have hproc2 : ∀ y ∈ DepGraph.get g node, y ∈ visited ∧ y ∉ node :: r0 := by
      intro y hy
      apply hproc
      rw [List.append_nil] at hget
      rw [← hget]
      exact hy
    have hGS2 : GoodState g visited r0 := goodState_finish hGS hnodev hproc2
    refine ⟨hreq.symm, ?_, ?_⟩
    · rw [← hveq]
      exact fun a ha => ha
    · rw [← hveq]
      exact hGS2
  | cons nb nbs ihn =>
    intro processed visited r0 v r hget hnodev hnoder0 hproc hGS heq
    by_cases hv : nb ∈ visited
    · by_cases hr : nb ∈ node :: r0
      · rw [show hasCycleNbrs g fuel node (nb :: nbs) visited (node :: r0) =
            some (true, visited, node :: r0) from by
          simp [hasCycleNbrs, hv, hr]] at heq
        simp at heq
      · rw [show hasCycleNbrs g fuel node (nb :: nbs) visited (node :: r0) =
            hasCycleNbrs g fuel node nbs visited (node :: r0) from by
          simp [hasCycleNbrs, hv, hr]] at heq
        have hget2 : DepGraph.get g node = (processed ++ [nb]) ++ nbs := by
          rw [hget, List.append_cons]
        have hproc2 : ∀ y ∈ processed ++ [nb], y ∈ visited ∧ y ∉ node :: r0 := by
          intro y hy
          rcases List.mem_append.mp hy with h2 | h2
          · exact hproc y h2
          · simp only [List.mem_singleton] at h2
            subst h2
            exact ⟨hv, hr⟩
        exact ihn (processed ++ [nb]) visited r0 v r hget2 hnodev hnoder0 hproc2 hGS heq
    · rcases hres : hasCycleDfs g fuel nb visited (node :: r0) with _ | ⟨b, v1, r1⟩
      · rw [show hasCycleNbrs g fuel node (nb :: nbs) visited (node :: r0) = none from by
          simp [hasCycleNbrs, hv, hres]] at heq
        cases heq
      · cases b with
        | true =>
          rw [show hasCycleNbrs g fuel node (nb :: nbs) visited (node :: r0) =
              some (true, v1, r1) from by simp [hasCycleNbrs, hv, hres]] at heq
          simp at heq
        | false =>
          obtain ⟨hr1, hsub1, hnb1, hnbnr, hGS1⟩ := hD nb visited (node :: r0) v1 r1 hv hGS hres
          subst hr1
          rw [show hasCycleNbrs g fuel node (nb :: nbs) visited (node :: r0) =
              hasCycleNbrs g fuel node nbs v1 (node :: r0) from by
            simp [hasCycleNbrs, hv, hres]] at heq
          have hget2 : DepGraph.get g node = (processed ++ [nb]) ++ nbs := by
            rw [hget, List.append_cons]
          have hproc2 : ∀ y ∈ processed ++ [nb], y ∈ v1 ∧ y ∉ node :: r0 := by
            intro y hy
            rcases List.mem_append.mp hy with h2 | h2
            · obtain ⟨hyv, hynr⟩ := hproc y h2
              exact ⟨hsub1 hyv, hynr⟩
            · simp only [List.mem_singleton] at h2
              subst h2
              exact ⟨hnb1, hnbnr⟩
          obtain ⟨hr2, hsub2, hGS2⟩ :=
            ihn (processed ++ [nb]) v1 r0 v r hget2 (hsub1 hnodev) hnoder0 hproc2 hGS1 heq
          exact ⟨hr2, fun a ha => hsub2 (hsub1 ha), hGS2⟩

theorem dfs_inv_D (g : DepGraph) : ∀ fuel, DfsOkD g fuel := by
  intro fuel
  induction fuel with
  | zero =>
    intro node visited recStack v r hnv hGS heq
    simp [hasCycleDfs] at heq
  | succ fuel ih =>
    have hN := dfsOkN_of_dfsOkD g fuel ih
    intro node visited recStack v r hnv hGS heq
    have hnr : node ∉ recStack := fun h => hnv (hGS.1 h)
    rw [show hasCycleDfs g (fuel + 1) node visited recStack =
        hasCycleNbrs g fuel node (DepGraph.get g node) (node :: visited)
          (node :: recStack) from by simp [hasCycleDfs]] at heq
    have hGS2 : GoodState g (node :: visited) (node :: recStack) := by
      constructor
      · intro a ha
        rcases List.mem_cons.mp ha with rfl | h2
        · exact List.mem_cons_self _ _
        · exact List.mem_cons_of_mem _ (hGS.1 h2)
      · obtain ⟨rank, hrank⟩ := hGS.2
        refine ⟨rank, ?_⟩
        intro x hx hxr y hy
        have hxn : x ≠ node := fun h => hxr (h ▸ List.mem_cons_self _ _)
        have hxv : x ∈ visited := by
          rcases List.mem_cons.mp hx with h2 | h2
          · exact absurd h2 hxn
          · exact h2
        have hxrold : x ∉ recStack := fun h => hxr (List.mem_cons_of_mem _ h)
        obtain ⟨hyv, hyr, hylt⟩ := hrank x hxv hxrold y hy
        have hyn : y ≠ node := fun h => hnv (h ▸ hyv)
        refine ⟨List.mem_cons_of_mem _ hyv, ?_, hylt⟩
        intro h
        rcases List.mem_cons.mp h with h2 | h2
        · exact hyn h2
        · exact hyr h2
    obtain ⟨hr, hsub, hGS3⟩ := hN node (DepGraph.get g node) [] (node :: visited) recStack v r
      (by simp) (List.mem_cons_self _ _) hnr (by intro y hy; cases hy) hGS2 heq
    exact ⟨hr, fun a ha => hsub (List.mem_cons_of_mem _ ha),
      hsub (List.mem_cons_self _ _), hnr, hGS3⟩

theorem dfs_total (g : DepGraph) :
    ∀ fuel : Nat,
      (∀ (node : String) (visited recStack : List String),
        node ∈ allNodes g → node ∉ visited →
        ((allNodes g).toFinset \ visited.toFinset).card ≤ fuel →
        ∃ b v r, hasCycleDfs g fuel node visited recStack = some (b, v, r) ∧
          visited ⊆ v ∧ node ∈ v) ∧
      (∀ (node : String) (nbs visited recStack : List String),
        (∀ x ∈ nbs, x ∈ allNodes g) →
        ((allNodes g).toFinset \ visited.toFinset).card ≤ fuel →
        ∃ b v r, hasCycleNbrs g fuel node nbs visited recStack = some (b, v, r) ∧
          visited ⊆ v) := by
  intro fuel
  induction fuel with
  | zero =>
    constructor
    · intro node visited recStack hmem hnv hcard
      exfalso
      have hin : node ∈ (allNodes g).toFinset \ visited.toFinset := by
        rw [Finset.mem_sdiff, List.mem_toFinset, List.mem_toFinset]
        exact ⟨hmem, hnv⟩
      have := Finset.card_pos.mpr ⟨node, hin⟩
      omega
    · intro node nbs
      induction nbs with
      | nil =>
        intro visited recStack hsub hcard
        exact ⟨false, visited, recStack.erase node, by simp [hasCycleNbrs], fun a ha => ha⟩
      | cons nb nbs ihn =>
        intro visited recStack hsub hcard
        by_cases hv : nb ∈ visited
        · by_cases hr : nb ∈ recStack
          · exact ⟨true, visited, recStack, by simp [hasCycleNbrs, hv, hr], fun a ha => ha⟩
          · obtain ⟨b, v, r, heq, hs⟩ :=
              ihn visited recStack (fun x hx => hsub x (List.mem_cons_of_mem _ hx)) hcard
            exact ⟨b, v, r, by simp [hasCycleNbrs, hv, hr, heq], hs⟩
        · exfalso
          have hin : nb ∈ (allNodes g).toFinset \ visited.toFinset := by
            rw [Finset.mem_sdiff, List.mem_toFinset, List.mem_toFinset]
            exact ⟨hsub nb (List.mem_cons_self _ _), hv⟩
          have := Finset.card_pos.mpr ⟨nb, hin⟩
          omega
  | succ fuel ih =>
    obtain ⟨ihD, ihN⟩ := ih
    have hD : ∀ (node : String) (visited recStack : List String),
        node ∈ allNodes g → node ∉ visited →
        ((allNodes g).toFinset \ visited.toFinset).card ≤ fuel + 1 →
        ∃ b v r, hasCycleDfs g (fuel + 1) node visited recStack = some (b, v, r) ∧
          visited ⊆ v ∧ node ∈ v := by
      intro node visited recStack hmem hnv hcard
      have hcard2 : ((allNodes g).toFinset \ (node :: visited).toFinset).card ≤ fuel := by
        have := cardRem_cons (List.mem_toFinset.mpr hmem) hnv
        omega
      obtain ⟨b, v, r, heq, hsub⟩ := ihN node (DepGraph.get g node) (node :: visited)
        (node :: recStack) (fun x hx => get_subset_allNodes g node x hx) hcard2
      refine ⟨b, v, r, ?_, fun a ha => hsub (List.mem_cons_of_mem _ ha),
        hsub (List.mem_cons_self _ _)⟩
      rw [show hasCycleDfs g (fuel + 1) node visited recStack =
          hasCycleNbrs g fuel node (DepGraph.get g node) (node :: visited)
            (node :: recStack) from by simp [hasCycleDfs]]
      exact heq
    refine ⟨hD, ?_⟩
    intro node nbs
    induction nbs with
    | nil =>
      intro visited recStack hsub hcard
      exact ⟨false, visited, recStack.erase node, by simp [hasCycleNbrs], fun a ha => ha⟩
    | cons nb nbs ihn =>
      intro visited recStack hsub hcard
      by_cases hv : nb ∈ visited
      · by_cases hr : nb ∈ recStack
        · exact ⟨true, visited, recStack, by simp [hasCycleNbrs, hv, hr], fun a ha => ha⟩
        · obtain ⟨b, v, r, heq, hs⟩ :=
            ihn visited recStack (fun x hx => hsub x (List.mem_cons_of_mem _ hx)) hcard
          exact ⟨b, v, r, by simp [hasCycleNbrs, hv, hr, heq], hs⟩
      · obtain ⟨b1, v1, r1, heq1, hs1, hnb1⟩ :=
          hD nb visited recStack (hsub nb (List.mem_cons_self _ _)) hv hcard
        cases b1 with
        | true => exact ⟨true, v1, r1, by simp [hasCycleNbrs, hv, heq1], hs1⟩
        | false =>
          have hcard2 : ((allNodes g).toFinset \ v1.toFinset).card ≤ fuel + 1 :=
            le_trans (cardRem_mono hs1) hcard
          obtain ⟨b, v, r, heq, hs⟩ :=
            ihn v1 r1 (fun x hx => hsub x (List.mem_cons_of_mem _ hx)) hcard2
          exact ⟨b, v, r, by simp [hasCycleNbrs, hv, heq1, heq],
            fun a ha => hs (hs1 ha)⟩

theorem cardRem_le_dfsFuel (g : DepGraph) (visited : List String) :
    ((allNodes g).toFinset \ visited.toFinset).card ≤ dfsFuel g := by
  have h1 : ((allNodes g).toFinset \ visited.toFinset).card ≤ (allNodes g).toFinset.card :=
    Finset.card_le_card Finset.sdiff_subset
  have h2 : (allNodes g).toFinset.card ≤ (allNodes g).length := (allNodes g).toFinset_card_le
  unfold dfsFuel
  omega

theorem validateLoop_total (g : DepGraph) :
    ∀ (nodes visited recStack : List String),
      (∀ k ∈ nodes, k ∈ allNodes g) →
      ∃ b, validateLoop g (dfsFuel g) nodes visited recStack = some b := by
  intro nodes
  induction nodes with
  | nil =>
    intro visited recStack hsub
    exact ⟨true, rfl⟩
  | cons node rest ihn =>
    intro visited recStack hsub
    by_cases hv : node ∈ visited
    · obtain ⟨b, hb⟩ := ihn visited recStack (fun k hk => hsub k (List.mem_cons_of_mem _ hk))
      exact ⟨b, by simp [validateLoop, hv, hb]⟩
    · obtain ⟨b1, v1, r1, heq1, -, -⟩ := (dfs_total g (dfsFuel g)).1 node visited recStack
        (hsub node (List.mem_cons_self _ _)) hv (cardRem_le_dfsFuel g visited)
      cases b1 with
      | true => exact ⟨false, by simp [validateLoop, hv, heq1]⟩
      | false =>
        obtain ⟨b, hb⟩ := ihn v1 r1 (fun k hk => hsub k (List.mem_cons_of_mem _ hk))
        exact ⟨b, by simp [validateLoop, hv, heq1, hb]⟩

theorem validateLoop_true (g : DepGraph) (fuel : Nat) :
    ∀ (nodes visited : List String),
      GoodState g visited [] →
      validateLoop g fuel nodes visited [] = some true →
      ∃ v, (∀ k ∈ nodes, k ∈ v) ∧ (∀ a ∈ visited, a ∈ v) ∧ GoodState g v [] := by
  intro nodes
  induction nodes with
  | nil =>
    intro visited hGS heq
    refine ⟨visited, ?_, fun a ha => ha, hGS⟩
    intro k hk
    cases hk
  | cons node rest ihn =>
    intro visited hGS heq
    by_cases hv : node ∈ visited
    · rw [show validateLoop g fuel (node :: rest) visited [] =
          validateLoop g fuel rest visited [] from by simp [validateLoop, hv]] at heq
      obtain ⟨v, hk, hs, hGS2⟩ := ihn visited hGS heq
      refine ⟨v, ?_, hs, hGS2⟩
      intro k hk2
      rcases List.mem_cons.mp hk2 with rfl | h2
      · exact hs _ hv
      · exact hk k h2
    · rcases hres : hasCycleDfs g fuel node visited [] with _ | ⟨b, v1, r1⟩
      · rw [show validateLoop g fuel (node :: rest) visited [] = none from by
          simp [validateLoop, hv, hres]] at heq
        cases heq
      · cases b with
        | true =>
          rw [show validateLoop g fuel (node :: rest) visited [] = some false from by
            simp [validateLoop, hv, hres]] at heq
          simp at heq
        | false =>
          obtain ⟨hr1, hsub1, hnode1, -, hGS1⟩ :=
            dfs_inv_D g fuel node visited [] v1 r1 hv hGS hres
          subst hr1
          rw [show validateLoop g fuel (node :: rest) visited [] =
              validateLoop g fuel rest v1 [] from by simp [validateLoop, hv, hres]] at heq
          obtain ⟨v, hk, hs, hGS2⟩ := ihn v1 hGS1 heq
          refine ⟨v, ?_, fun a ha => hs _ (hsub1 ha), hGS2⟩
          intro k hk2
          rcases List.mem_cons.mp hk2 with rfl | h2
          · exact hs _ hnode1
          · exact hk k h2

/-- If `_validate_dependencies` answers `True`, the graph has no cycle. -/
theorem validate_true_acyclic {g : DepGraph} (h : validate_dependencies g = some true) :
    Acyclic (GEdge g) := by
  have hGS0 : GoodState g [] [] :=
    ⟨fun a ha => ha, ⟨fun _ => 0, by intro x hx; cases hx⟩⟩
  obtain ⟨v, hkeys, -, hGSf⟩ := validateLoop_true g (dfsFuel g) (DepGraph.keys g) [] hGS0 h
  obtain ⟨rank, hrank⟩ := hGSf.2
  rintro ⟨a, n, hn, hp⟩
  have hV : ∀ x, x ∈ v → ∀ y, GEdge g x y → y ∈ v ∧ rank y < rank x := by
    intro x hx y hy
    obtain ⟨h1, -, h3⟩ := hrank x hx (by intro hc; cases hc) y hy
    exact ⟨h1, h3⟩
  have hain : a ∈ v := by
    match n, hn with
    | m + 1, _ =>
      obtain ⟨c, hac, -⟩ := hp
      exact hkeys a (edge_mem_keys hac)
  have := @pathN_rank (GEdge g) (fun x => x ∈ v) rank
    (fun x hx y hy => hV x hx y hy) n a a hp hain
  omega

theorem validate_dependencies_total (g : DepGraph) :
    ∃ b, validate_dependencies g = some b :=
  validateLoop_total g (DepGraph.keys g) [] [] (keys_subset_allNodes g)

/-- The function `_validate_dependencies` answers `False` on every cyclic graph. -/
theorem validate_dependencies_cyclic {g : DepGraph} (hcyc : HasCycle (GEdge g)) :
    validate_dependencies g = some false := by
  obtain ⟨b, hb⟩ := validate_dependencies_total g
  cases b with
  | false => exact hb
  | true => exact absurd hcyc (validate_true_acyclic hb)

/-! ## Relating the task set to its dependency-graph dict -/

theorem dictInsert_append {g : DepGraph} {k : String} {v : List String}
    (h : k ∉ DepGraph.keys g) : dictInsert g k v = g ++ [(k, v)] := by
  induction g with
  | nil => rfl
  | cons p rest ih =>
    have hne : ¬(p.1 == k) = true := by
      simp only [beq_iff_eq]
      intro heq
      exact h (heq ▸ List.mem_map_of_mem (fun q => q.1) (List.mem_cons_self p rest))
    have hrest : k ∉ DepGraph.keys rest := by
      intro hk
      exact h (List.mem_cons_of_mem _ hk)
    simp only [dictInsert, hne, if_false, Bool.false_eq_true]
    rw [ih hrest]
    simp

theorem taskGraph_eq_map {tasks : List WorkTask} (h1 : (taskIds tasks).Nodup) :
    taskGraph tasks = tasks.map (fun t => (t.id, t.dependencies)) := by
  suffices haux : ∀ (ts : List WorkTask) (acc : DepGraph),
      (∀ t ∈ ts, t.id ∉ DepGraph.keys acc) → (taskIds ts).Nodup →
      ts.foldl (fun g t => dictInsert g t.id t.dependencies) acc =
        acc ++ ts.map (fun t => (t.id, t.dependencies)) by
    have := haux tasks [] (by intro t ht h; cases h) h1
    simpa [taskGraph] using this
  intro ts
  induction ts with
  | nil =>
    intro acc h hnd
    simp
  | cons t ts ih =>
    intro acc h hnd
    have hnd2 : (taskIds ts).Nodup := (List.nodup_cons.mp hnd).2
    have hhead : t.id ∉ taskIds ts := by
      simpa [taskIds] using (List.nodup_cons.mp hnd).1
    simp only [List.foldl_cons]
    rw [dictInsert_append (h t (List.mem_cons_self _ _))]
    rw [ih (acc ++ [(t.id, t.dependencies)]) ?_ hnd2]
    · simp
    · intro u hu hku
      have hkeys : DepGraph.keys (acc ++ [(t.id, t.dependencies)]) =
          DepGraph.keys acc ++ [t.id] := by
        simp [DepGraph.keys]
      rw [hkeys] at hku
      rcases List.mem_append.mp hku with h2 | h2
      · exact h u (List.mem_cons_of_mem _ hu) h2
      · simp only [List.mem_singleton] at h2
        exact hhead (h2 ▸ List.mem_map_of_mem (fun t2 => t2.id) hu)

theorem taskGraph_get {tasks : List WorkTask} (h1 : (taskIds tasks).Nodup) (a : String) :
    DepGraph.get (taskGraph tasks) a =
      match tasks.find? (fun t => t.id == a) with
      | some t => t.dependencies
      | none => [] := by
  rw [taskGraph_eq_map h1]
  unfold DepGraph.get
  rw [List.find?_map]
  have hcomp : ((fun p : String × List String => p.1 == a) ∘
      (fun t : WorkTask => (t.id, t.dependencies))) = fun t : WorkTask => t.id == a := rfl
  rw [hcomp]
  rcases hf : tasks.find? (fun t => t.id == a) with _ | t <;> rw [hf] <;> rfl

theorem gEdge_taskGraph {tasks : List WorkTask} (h1 : (taskIds tasks).Nodup)
    (a b : String) : GEdge (taskGraph tasks) a b ↔ Edge tasks a b := by
  unfold GEdge
  rw [taskGraph_get h1 a]
  constructor
  · intro h
    rcases hf : tasks.find? (fun t => t.id == a) with _ | t
    · rw [hf] at h
      cases h
    · rw [hf] at h
      have htm := List.mem_of_find?_eq_some hf
      have hta : t.id = a := by simpa using List.find?_some hf
      exact ⟨t, htm, hta, h⟩
  · rintro ⟨t, htm, hta, hb⟩
    have hex : ∃ u ∈ tasks, (fun t2 => t2.id == a) u = true := ⟨t, htm, by simp [hta]⟩
    obtain ⟨u, hu⟩ := Option.isSome_iff_exists.mp (List.find?_isSome.mpr hex)
    rw [hu]
    have hum := List.mem_of_find?_eq_some hu
    have hua : u.id = a := by simpa using List.find?_some hu
    have hut : u = t := eq_of_mem_of_id_eq h1 hum htm (by rw [hua, hta])
    rw [hut]
    exact hb

theorem pathN_congr {r s : String → String → Prop} (h : ∀ a b, r a b ↔ s a b) :
    ∀ (n : Nat) (a b : String), PathN r n a b ↔ PathN s n a b := by
  intro n
  induction n with
  | zero => intro a b; exact Iff.rfl
  | succ n ih =>
    intro a b
    constructor
    · rintro ⟨c, hac, hcb⟩
      exact ⟨c, (h a c).mp hac, (ih c b).mp hcb⟩
    · rintro ⟨c, hac, hcb⟩
      exact ⟨c, (h a c).mpr hac, (ih c b).mpr hcb⟩

theorem hasCycle_congr {r s : String → String → Prop} (h : ∀ a b, r a b ↔ s a b) :
    HasCycle r ↔ HasCycle s := by
  constructor
  · rintro ⟨a, n, hn, hp⟩
    exact ⟨a, n, hn, (pathN_congr h n a a).mp hp⟩
  · rintro ⟨a, n, hn, hp⟩
    exact ⟨a, n, hn, (pathN_congr h n a a).mpr hp⟩

/-- The function `_validate_dependencies` on the dict built from a task set with a
dependency cycle answers `False`. -/
theorem validate_tasks_cyclic {tasks : List WorkTask} (h1 : (taskIds tasks).Nodup)
    (hcyc : HasCycle (Edge tasks)) :
    validate_dependencies (taskGraph tasks) = some false :=
  validate_dependencies_cyclic ((hasCycle_congr (gEdge_taskGraph h1)).mpr hcyc)

/-! ## Soundness of the DFS: a `False` verdict really means a cycle -/

/-- The recursion stack read top-down descends the call chain: each entry has
an edge to the one pushed on top of it. -/
def StackChain (g : DepGraph) : List String → Prop
  | [] => True
  | [_] => True
  | a :: b :: l => GEdge g b a ∧ StackChain g (b :: l)

theorem stackChain_path {g : DepGraph} :
    ∀ (rs : List String) (node nb : String), StackChain g (node :: rs) →
      nb ∈ node :: rs → ∃ k, PathN (GEdge g) k nb node := by
  intro rs
  induction rs with
  | nil =>
    intro node nb hch hmem
    rcases List.mem_cons.mp hmem with rfl | h2
    · exact ⟨0, rfl⟩
    · cases h2
  | cons b l ih =>
    intro node nb hch hmem
    obtain ⟨hedge, hch2⟩ := hch
    rcases List.mem_cons.mp hmem with rfl | h2
    · exact ⟨0, rfl⟩
    · obtain ⟨k, hk⟩ := ih b nb hch2 h2
      exact ⟨k + 1, pathN_trans hk ⟨node, hedge, rfl⟩⟩

theorem goodState_push {g : DepGraph} {visited recStack : List String} {node : String}
    (hnv : node ∉ visited) (hGS : GoodState g visited recStack) :
    GoodState g (node :: visited) (node :: recStack) := by
  constructor
  · intro a ha
    rcases List.mem_cons.mp ha with rfl | h2
    · exact List.mem_cons_self _ _
    · exact List.mem_cons_of_mem _ (hGS.1 h2)
  · obtain ⟨rank, hrank⟩ := hGS.2
    refine ⟨rank, ?_⟩
    intro x hx hxr y hy
    have hxn : x ≠ node := fun h => hxr (h ▸ List.mem_cons_self _ _)
    have hxv : x ∈ visited := by
      rcases List.mem_cons.mp hx with h2 | h2
      · exact absurd h2 hxn
      · exact h2
    have hxrold : x ∉ recStack := fun h => hxr (List.mem_cons_of_mem _ h)
    obtain ⟨hyv, hyr, hylt⟩ := hrank x hxv hxrold y hy
    have hyn : y ≠ node := fun h => hnv (h ▸ hyv)
    refine ⟨List.mem_cons_of_mem _ hyv, ?_, hylt⟩
    intro h
    rcases List.mem_cons.mp h with h2 | h2
    · exact hyn h2
    · exact hyr h2

/-- Postcondition shape of a `has_cycle` call that returns `True`. -/
def SndDP (g : DepGraph) (fuel : Nat) : Prop :=
  ∀ (node : String) (visited recStack v r : List String),
    node ∉ visited → GoodState g visited recStack → StackChain g (node :: recStack) →
    hasCycleDfs g fuel node visited recStack = some (true, v, r) →
    HasCycle (GEdge g)

def SndNP (g : DepGraph) (fuel : Nat) : Prop :=
  ∀ (node : String) (nbs visited r0 v r : List String),
    (∀ x ∈ nbs, x ∈ DepGraph.get g node) →
    node ∈ visited → node ∉ r0 →
    GoodState g visited (node :: r0) → StackChain g (node :: r0) →
    hasCycleNbrs g fuel node nbs visited (node :: r0) = some (true, v, r) →
    HasCycle (GEdge g)

theorem sndN_of_sndD (g : DepGraph) (fuel : Nat) (hSd : SndDP g fuel)
    (hD : DfsOkD g fuel) : SndNP g fuel := by
  intro node nbs
  induction nbs with
  | nil =>
    intro visited r0 v r hsubn hnodev hnoder0 hGS hch heq
    rw [show hasCycleNbrs g fuel node [] visited (node :: r0) =
        some (false, visited, r0) from by
      simp [hasCycleNbrs, List.erase_cons_head]] at heq
    simp at heq
  | cons nb nbs ihn =>
    intro visited r0 v r hsubn hnodev hnoder0 hGS hch heq
    by_cases hv : nb ∈ visited
    · by_cases hr : nb ∈ node :: r0
      · have hedge : GEdge g node nb := hsubn nb (List.mem_cons_self _ _)
        obtain ⟨k, hk⟩ := stackChain_path r0 node nb hch hr
        exact ⟨nb, k + 1, by omega, pathN_trans hk ⟨nb, hedge, rfl⟩⟩
      · rw [show hasCycleNbrs g fuel node (nb :: nbs) visited (node :: r0) =
            hasCycleNbrs g fuel node nbs visited (node :: r0) from by
          simp [hasCycleNbrs, hv, hr]] at heq
        exact ihn visited r0 v r (fun x hx => hsubn x (List.mem_cons_of_mem _ hx))
          hnodev hnoder0 hGS hch heq
    · rcases hres : hasCycleDfs g fuel nb visited (node :: r0) with _ | ⟨b1, v1, r1⟩
      · rw [show hasCycleNbrs g fuel node (nb :: nbs) visited (node :: r0) = none from by
          simp [hasCycleNbrs, hv, hres]] at heq
        cases heq
      · cases b1 with
        | true =>
          have hchain2 : StackChain g (nb :: node :: r0) :=
            ⟨hsubn nb (List.mem_cons_self _ _), hch⟩
          exact hSd nb visited (node :: r0) v1 r1 hv hGS hchain2 hres
        | false =>
          obtain ⟨hr1, hsub1, hnb1, hnbnr, hGS1⟩ := hD nb visited (node :: r0) v1 r1 hv hGS hres
          subst hr1
          rw [show hasCycleNbrs g fuel node (nb :: nbs) visited (node :: r0) =
              hasCycleNbrs g fuel node nbs v1 (node :: r0) from by
            simp [hasCycleNbrs, hv, hres]] at heq
          exact ihn v1 r0 v r (fun x hx => hsubn x (List.mem_cons_of_mem _ hx))
            (hsub1 hnodev) hnoder0 hGS1 hch heq

theorem sndD_all (g : DepGraph) : ∀ fuel, SndDP g fuel := by
  intro fuel
  induction fuel with
  | zero =>
    intro node visited recStack v r hnv hGS hch heq
    simp [hasCycleDfs] at heq
  | succ fuel ih =>
    have hN := sndN_of_sndD g fuel ih (dfs_inv_D g fuel)
    intro node visited recStack v r hnv hGS hch heq
    rw [show hasCycleDfs g (fuel + 1) node visited recStack =
        hasCycleNbrs g fuel node (DepGraph.get g node) (node :: visited)
          (node :: recStack) from by simp [hasCycleDfs]] at heq
    exact hN node (DepGraph.get g node) (node :: visited) recStack v r
      (fun x hx => hx) (List.mem_cons_self _ _) (fun h => hnv (hGS.1 h))
      (goodState_push hnv hGS) hch heq

theorem validateLoop_false (g : DepGraph) (fuel : Nat) :
    ∀ (nodes visited : List String),
      GoodState g visited [] →
      validateLoop g fuel nodes visited [] = some false →
      HasCycle (GEdge g) := by
  intro nodes
  induction nodes with
  | nil =>
    intro visited hGS heq
    rw [show validateLoop g fuel [] visited [] = some true from rfl] at heq
    simp at heq
  | cons node rest ihn =>
    intro visited hGS heq
    by_cases hv : node ∈ visited
    · rw [show validateLoop g fuel (node :: rest) visited [] =
          validateLoop g fuel rest visited [] from by simp [validateLoop, hv]] at heq
      exact ihn visited hGS heq
    · rcases hres : hasCycleDfs g fuel node visited [] with _ | ⟨b, v1, r1⟩
      · rw [show validateLoop g fuel (node :: rest) visited [] = none from by
          simp [validateLoop, hv, hres]] at heq
        cases heq
      · cases b with
        | true =>
          exact sndD_all g fuel node visited [] v1 r1 hv hGS trivial hres
        | false =>
          obtain ⟨hr1, hsub1, hnode1, -, hGS1⟩ :=
            dfs_inv_D g fuel node visited [] v1 r1 hv hGS hres
          subst hr1
          rw [show validateLoop g fuel (node :: rest) visited [] =
              validateLoop g fuel rest v1 [] from by simp [validateLoop, hv, hres]] at heq
          exact ihn v1 hGS1 heq

/-- A negative verdict of `_validate_dependencies` exhibits a real cycle. -/
theorem validate_false_cyclic {g : DepGraph}
    (h : validate_dependencies g = some false) : HasCycle (GEdge g) :=
  validateLoop_false g (dfsFuel g) (DepGraph.keys g) []
    ⟨fun a ha => ha, ⟨fun _ => 0, by intro x hx; cases hx⟩⟩ h

/-- The function `_validate_dependencies` answers `True` on every acyclic graph. -/
theorem validate_acyclic_true {g : DepGraph} (h : Acyclic (GEdge g)) :
    validate_dependencies g = some true := by
  obtain ⟨b, hb⟩ := validate_dependencies_total g
  cases b with
  | true => exact hb
  | false => exact absurd (validate_false_cyclic hb) h

/-! ## Concrete task sets used by the claims -/

/-- Scenario of §8 of the spec: A (30 min, no deps). -/
def taskA : WorkTask := { id := "A", estimated_minutes := 30 }

/-- Scenario of §8 of the spec: B (20 min, depends on A). -/
def taskB : WorkTask := { id := "B", estimated_minutes := 20, dependencies := ["A"] }

/-- Scenario of §8 of the spec: C (40 min, depends on A). -/
def taskC : WorkTask := { id := "C", estimated_minutes := 40, dependencies := ["A"] }

def scenarioTasks : List WorkTask := [taskA, taskB, taskC]

def scenarioPlan : WorkPlan := { name := "scenario", tasks := scenarioTasks }

/-- A two-task dependency cycle: X depends on Y and Y depends on X. -/
def taskX : WorkTask := { id := "X", estimated_minutes := 30, dependencies := ["Y"] }

def taskY : WorkTask := { id := "Y", estimated_minutes := 30, dependencies := ["X"] }

def cyclicTasks : List WorkTask := [taskX, taskY]

def cyclicPlan : WorkPlan := { name := "cyclic", tasks := cyclicTasks }

theorem cyclicTasks_hasCycle : HasCycle (Edge cyclicTasks) :=
  ⟨"X", 2, by omega,
    ⟨"Y", ⟨taskX, by simp [cyclicTasks], rfl, by simp [taskX]⟩,
      ⟨"X", ⟨taskY, by simp [cyclicTasks], rfl, by simp [taskY]⟩, rfl⟩⟩⟩

/-- A task whose dependency list references an id that exists nowhere. -/
def taskGhost : WorkTask := { id := "D", dependencies := ["ghost"] }

def ghostTasks : List WorkTask := [taskGhost]

theorem ghostTasks_acyclic : Acyclic (Edge ghostTasks) := by
  apply acyclic_of_rank (fun s => if s = "ghost" then 0 else 1)
  rintro x y ⟨t, ht, rfl, hd⟩
  simp only [ghostTasks, List.mem_cons, List.not_mem_nil, or_false] at ht
  subst ht
  simp only [taskGhost, List.mem_cons, List.not_mem_nil, or_false] at hd
  subst hd
  decide

theorem scenarioTasks_acyclic : Acyclic (Edge scenarioTasks) := by
  apply acyclic_of_rank (fun s => if s = "A" then 0 else 1)
  rintro x y ⟨t, ht, rfl, hd⟩
  simp only [scenarioTasks, List.mem_cons, List.not_mem_nil, or_false] at ht
  rcases ht with rfl | rfl | rfl
  · simp [taskA] at hd
  · simp only [taskB, List.mem_cons, List.not_mem_nil, or_false] at hd
    subst hd
    decide
  · simp only [taskC, List.mem_cons, List.not_mem_nil, or_false] at hd
    subst hd
    decide

/-- A pending low-priority task and a pending critical task, no dependencies. -/
def taskLow : WorkTask := { id := "L", priority := .low }

def taskCrit : WorkTask := { id := "K", priority := .critical }

def lowCritPlan : WorkPlan := { name := "p", tasks := [taskLow, taskCrit] }

def lowCritPlanner : WorkPlanner := { work_plans := [("p", lowCritPlan)] }

def emptyPlan : WorkPlan := { name := "e", tasks := [] }

def emptyPlanner : WorkPlanner := { work_plans := [("e", emptyPlan)] }

def noPlanner : WorkPlanner := { work_plans := [] }

/-- The 2-cycles used to show the validator's output carries no cycle data. -/
def gAB : DepGraph := [("A", ["B"]), ("B", ["A"])]

def gCD : DepGraph := [("C", ["D"]), ("D", ["C"])]

/-! ## Claims C5, C6, C7, C8, C9, C10 -/

/-- C5: the code, evaluated at the spec's own scenario A(30), B(20, deps A),
C(40, deps A): `_find_critical_path` starts its search from tasks *without*
dependencies and then follows `dependencies` edges, so every chain it builds
stops immediately; it returns `["A"]` of length 1, while the claim (and the
spec scenario) requires a critical path of length 2. -/
theorem claim_C5_code_eval :
    (estimate_timeline scenarioPlan).critical_path = ["A"] ∧
    (estimate_timeline scenarioPlan).critical_path.length = 1 := by
  constructor <;> decide

/-- C6: the code, evaluated at a plan with a pending low-priority task `L`
followed by a pending critical task `K` (no dependencies): `track_progress`
returns the available tasks sorted descending by the priority *value string*
("low" > "critical" lexicographically), so `L` comes first, while the claim
requires the critical task first. -/
theorem claim_C6_code_eval :
    ∃ p : Progress, (track_progress lowCritPlanner "p").2 = Except.ok p ∧
      p.next_available_tasks = [taskLow, taskCrit] ∧
      taskLow.priority = TaskPriority.low ∧ taskCrit.priority = TaskPriority.critical := by
  refine ⟨_, rfl, ?_, by decide, by decide⟩
  decide

/-- C7 (counterexample): on the cyclic plan {X ↔ Y} with 30 minutes each,
`estimate_timeline` sums over the *topologically sorted* list, which is empty,
so `sequential_hours` is 0 and not the claimed 60/60 = 1. -/
theorem claim_C7_counterexample :
    (estimate_timeline cyclicPlan).sequential_hours ≠
      (minutesSum cyclicPlan.tasks : ℚ) / 60 := by
  have h : topological_sort cyclicTasks = [] := by decide
  have h0 : (estimate_timeline cyclicPlan).sequential_hours = 0 := by
    simp only [estimate_timeline, cyclicPlan, h, minutesSum, List.map_nil, List.sum_nil]
    norm_num
  have h60 : minutesSum cyclicPlan.tasks = 60 := by decide
  rw [h0, h60]
  norm_num

/-- C7 (amended): for every plan whose task set has unique ids,
duplicate-free dependency lists and an acyclic dependency graph,
`sequential_hours` equals the sum of all `estimated_minutes` divided by 60;
in general the code sums over the topologically sorted list, which omits the
members of dependency cycles. -/
theorem claim_C7_amended (plan : WorkPlan) (hids : (taskIds plan.tasks).Nodup)
    (hdeps : ∀ t ∈ plan.tasks, t.dependencies.Nodup)
    (hacyc : Acyclic (Edge plan.tasks)) :
    (estimate_timeline plan).sequential_hours = (minutesSum plan.tasks : ℚ) / 60 := by
  have hperm := topological_sort_perm hids hdeps hacyc
  have hsum : minutesSum (topological_sort plan.tasks) = minutesSum plan.tasks := by
    unfold minutesSum
    exact (hperm.map (fun t => t.estimated_minutes)).sum_eq
  show (minutesSum (topological_sort plan.tasks) : ℚ) / 60 = _
  rw [hsum]

/-- C7 (witness): the amended statement applied to the scenario plan, where
the total is 90 minutes, i.e. 3/2 hours. -/
theorem claim_C7_witness :
    ((taskIds scenarioPlan.tasks).Nodup ∧
      (∀ t ∈ scenarioPlan.tasks, t.dependencies.Nodup) ∧
      Acyclic (Edge scenarioPlan.tasks)) ∧
    (estimate_timeline scenarioPlan).sequential_hours =
      (minutesSum scenarioPlan.tasks : ℚ) / 60 ∧
    (estimate_timeline scenarioPlan).sequential_hours = 3 / 2 := by
  have hconc := claim_C7_amended scenarioPlan (by decide) (by decide) scenarioTasks_acyclic
  refine ⟨⟨by decide, by decide, scenarioTasks_acyclic⟩, hconc, ?_⟩
  rw [hconc, show minutesSum scenarioPlan.tasks = 90 from by decide]
  norm_num

/-- C8 (counterexample): the timeline dict returned by `estimate_timeline`
has no key `"parallel_estimate_hours"`; the parallel estimate is stored under
the key `"parallel_estimate"`. -/
theorem claim_C8_counterexample :
    "parallel_estimate_hours" ∉ estimate_timeline_keys ∧
    "parallel_estimate" ∈ estimate_timeline_keys := by
  constructor <;> decide

/-- C8 (amended): for every input plan the parallel estimate — stored under
the result field `parallel_estimate` — equals `sequential_hours` times the
documented constant 0.7 = 7/10 exactly. -/
theorem claim_C8_amended (plan : WorkPlan) :
    (estimate_timeline plan).parallel_estimate =
      (estimate_timeline plan).sequential_hours * (7 / 10) := rfl

/-- C9: when the requested plan is registered and its task list is empty,
`track_progress` returns a result (no exception) whose
`completion_percentage` is 0: the division by the total minutes sits behind
an explicit `total_minutes > 0` guard. -/
theorem claim_C9 (planner : WorkPlanner) (plan_name : String) (plan : WorkPlan)
    (hfound : plansLookup planner.work_plans plan_name = some plan)
    (hempty : plan.tasks = []) :
    ∃ p : Progress, (track_progress planner plan_name).2 = Except.ok p ∧
      p.completion_percentage = 0 ∧ p.tasks_total = 0 := by
  unfold track_progress
  rw [hfound]
  refine ⟨_, rfl, ?_, ?_⟩
  · simp [hempty, minutesSum]
  · simp [hempty]

/-- C9 (witness): a registered plan with no tasks. -/
theorem claim_C9_witness :
    plansLookup emptyPlanner.work_plans "e" = some emptyPlan ∧
    emptyPlan.tasks = [] ∧
    ∃ p : Progress, (track_progress emptyPlanner "e").2 = Except.ok p ∧
      p.completion_percentage = 0 ∧ p.tasks_total = 0 :=
  ⟨rfl, rfl, claim_C9 emptyPlanner "e" emptyPlan rfl rfl⟩

/-- C10: when the requested name is not in the in-memory plan registry,
`track_progress` raises `ValueError` (modelled as `Except.error`) and returns
the planner state unchanged; a progress result is produced only for a
registered name. -/
theorem claim_C10 (planner : WorkPlanner) (plan_name : String) :
    (plansLookup planner.work_plans plan_name = none →
      track_progress planner plan_name =
        (planner, Except.error ("Work plan not found: " ++ plan_name))) ∧
    (∀ (pl : WorkPlanner) (p : Progress),
      track_progress planner plan_name = (pl, Except.ok p) →
      pl = planner ∧ plansLookup planner.work_plans plan_name ≠ none) := by
  constructor
  · intro h
    unfold track_progress
    rw [h]
  · intro pl p h
    unfold track_progress at h
    rcases hl : plansLookup planner.work_plans plan_name with _ | plan
    · rw [hl] at h
      simp only [Prod.mk.injEq] at h
      exact absurd h.2 (by simp)
    · rw [hl] at h
      simp only [Prod.mk.injEq] at h
      exact ⟨h.1.symm, by simp [hl]⟩

/-- C10 (witness): an empty registry rejects any name and leaves the planner
untouched. -/
theorem claim_C10_witness :
    plansLookup noPlanner.work_plans "missing" = none ∧
    track_progress noPlanner "missing" =
      (noPlanner, Except.error ("Work plan not found: " ++ "missing")) :=
  ⟨rfl, (claim_C10 noPlanner "missing").1 rfl⟩

/-! ## Claims C1, C2, C3, C4 -/

/-- C1: for every task set with unique ids whose dependency graph is acyclic
and whose dependency ids all refer to tasks of the set (each dependency list
free of duplicates), `_topological_sort` returns a permutation of the input
tasks, of the same length, in which every task sits at a strictly greater
index than each of its dependencies. -/
theorem claim_C1 (tasks : List WorkTask)
    (hids : (taskIds tasks).Nodup)
    (hclosed : ∀ t ∈ tasks, ∀ d ∈ t.dependencies, d ∈ taskIds tasks)
    (hnodup : ∀ t ∈ tasks, t.dependencies.Nodup)
    (hacyc : Acyclic (Edge tasks)) :
    (topological_sort tasks).Perm tasks ∧
    (topological_sort tasks).length = tasks.length ∧
    (∀ i j (hi : i < (topological_sort tasks).length)
      (hj : j < (topological_sort tasks).length),
      ((topological_sort tasks).get ⟨j, hj⟩).id ∈
        ((topological_sort tasks).get ⟨i, hi⟩).dependencies → j < i) :=
  ⟨topological_sort_perm hids hnodup hacyc,
   (topological_sort_perm hids hnodup hacyc).length_eq,
   topological_sort_index_lt hids hnodup hclosed⟩

/-- C1 (witness): the scenario set A, B (deps A), C (deps A). -/
theorem claim_C1_witness :
    ((taskIds scenarioTasks).Nodup ∧
      (∀ t ∈ scenarioTasks, ∀ d ∈ t.dependencies, d ∈ taskIds scenarioTasks) ∧
      (∀ t ∈ scenarioTasks, t.dependencies.Nodup) ∧
      Acyclic (Edge scenarioTasks)) ∧
    (topological_sort scenarioTasks).Perm scenarioTasks ∧
    (topological_sort scenarioTasks).length = scenarioTasks.length := by
  have h := claim_C1 scenarioTasks (by decide) (by decide) (by decide) scenarioTasks_acyclic
  exact ⟨⟨by decide, by decide, by decide, scenarioTasks_acyclic⟩, h.1, h.2.1⟩

/-- C2 (counterexample): `_validate_dependencies` returns the same bare
boolean on the cyclic graph {A ↔ B} as on the cyclic graph {C ↔ D}, and no
sequence of ids is mutually reachable in both graphs — so the result cannot
report any specific cycle, contradicting the claim that validation
additionally reports a cycle for diagnostics. -/
theorem claim_C2_counterexample :
    validate_dependencies gAB = validate_dependencies gCD ∧
    ¬ ∃ cyc : List String, cyc ≠ [] ∧
        (∀ a ∈ cyc, ∃ n, 0 < n ∧ PathN (GEdge gAB) n a a) ∧
        (∀ a ∈ cyc, ∃ n, 0 < n ∧ PathN (GEdge gCD) n a a) := by
  constructor
  · have hAB : HasCycle (GEdge gAB) :=
      ⟨"A", 2, by omega,
        ⟨"B", (by decide : "B" ∈ DepGraph.get gAB "A"),
          ⟨"A", (by decide : "A" ∈ DepGraph.get gAB "B"), rfl⟩⟩⟩
    have hCD : HasCycle (GEdge gCD) :=
      ⟨"C", 2, by omega,
        ⟨"D", (by decide : "D" ∈ DepGraph.get gCD "C"),
          ⟨"C", (by decide : "C" ∈ DepGraph.get gCD "D"), rfl⟩⟩⟩
    rw [validate_dependencies_cyclic hAB, validate_dependencies_cyclic hCD]
  · rintro ⟨cyc, hne, h1, h2⟩
    match cyc, hne with
    | a :: rest, _ =>
      obtain ⟨n, hn, hp⟩ := h1 a (List.mem_cons_self a rest)
      obtain ⟨m, hm, hq⟩ := h2 a (List.mem_cons_self a rest)
      have ha1 : a ∈ DepGraph.keys gAB := by
        match n, hn with
        | k + 1, _ =>
          obtain ⟨c, hac, -⟩ := hp
          exact edge_mem_keys hac
      have ha2 : a ∈ DepGraph.keys gCD := by
        match m, hm with
        | k + 1, _ =>
          obtain ⟨c, hac, -⟩ := hq
          exact edge_mem_keys hac
      rw [show DepGraph.keys gAB = ["A", "B"] from rfl] at ha1
      rw [show DepGraph.keys gCD = ["C", "D"] from rfl] at ha2
      simp only [List.mem_cons, List.not_mem_nil, or_false] at ha1 ha2
      rcases ha1 with rfl | rfl
      · revert ha2
        decide
      · revert ha2
        decide

/-- C2 (amended): for every task set with unique ids containing at least one
dependency cycle, `_validate_dependencies` on the task set's dependency dict
returns `False` (the source also prints a fixed warning string); the return
value is only this boolean, and no cycle is reported. -/
theorem claim_C2_amended (tasks : List WorkTask) (hids : (taskIds tasks).Nodup)
    (hcyc : HasCycle (Edge tasks)) :
    validate_dependencies (taskGraph tasks) = some false :=
  validate_tasks_cyclic hids hcyc

/-- C2 (witness): the two-task cycle X ↔ Y. -/
theorem claim_C2_witness :
    ((taskIds cyclicTasks).Nodup ∧ HasCycle (Edge cyclicTasks)) ∧
    validate_dependencies (taskGraph cyclicTasks) = some false :=
  ⟨⟨by decide, cyclicTasks_hasCycle⟩,
   claim_C2_amended cyclicTasks (by decide) cyclicTasks_hasCycle⟩

/-- C3 (counterexample): on the cyclic task set {X ↔ Y} the scheduler raises
nothing and returns the empty order — an order that silently omits the tasks
of the cycle — and `estimate_timeline` proceeds on it, reporting 0 sequential
hours instead of refusing. -/
theorem claim_C3_counterexample :
    topological_sort cyclicTasks = [] ∧
    (topological_sort cyclicTasks).length ≠ cyclicTasks.length ∧
    (estimate_timeline cyclicPlan).sequential_hours = 0 := by
  refine ⟨by decide, by decide, ?_⟩
  have h : topological_sort cyclicTasks = [] := by decide
  simp only [estimate_timeline, cyclicPlan, h, minutesSum, List.map_nil, List.sum_nil]
  norm_num

/-- C3 (amended): on every task set with unique ids and duplicate-free
dependency lists that contains a dependency cycle, `_topological_sort` raises
no error: it returns an order that is strictly shorter than the input and
from which every task lying on a cycle is absent, and `estimate_timeline`
proceeds, computing `sequential_hours` from that partial order. -/
theorem claim_C3_amended (tasks : List WorkTask) (hids : (taskIds tasks).Nodup)
    (hdeps : ∀ t ∈ tasks, t.dependencies.Nodup) (hcyc : HasCycle (Edge tasks)) :
    (topological_sort tasks).length < tasks.length ∧
    (∀ a n, 0 < n → PathN (Edge tasks) n a a →
      a ∉ taskIds (topological_sort tasks)) ∧
    (∀ plan : WorkPlan, plan.tasks = tasks →
      (estimate_timeline plan).sequential_hours =
        (minutesSum (topological_sort tasks) : ℚ) / 60) := by
  refine ⟨topological_sort_omits_cycle hids hdeps hcyc, ?_, ?_⟩
  · intro a n hn hp
    exact cycle_node_not_scheduled hids hdeps n hn a hp
  · intro plan hpt
    subst hpt
    rfl

/-- C3 (witness): the cyclic set X ↔ Y, where the returned order is empty. -/
theorem claim_C3_witness :
    ((taskIds cyclicTasks).Nodup ∧ (∀ t ∈ cyclicTasks, t.dependencies.Nodup) ∧
      HasCycle (Edge cyclicTasks)) ∧
    (topological_sort cyclicTasks).length < cyclicTasks.length := by
  have h := claim_C3_amended cyclicTasks (by decide) (by decide) cyclicTasks_hasCycle
  exact ⟨⟨by decide, by decide, cyclicTasks_hasCycle⟩, h.1⟩

/-- C4 (counterexample): the task `D` lists the dependency id "ghost" which
matches no task, yet validation returns `True` (no `UnknownDependencyError`
exists in the code) and `_topological_sort` returns the full schedule `[D]`:
the dangling reference is silently dropped, not an error. -/
theorem claim_C4_counterexample :
    "ghost" ∈ taskGhost.dependencies ∧
    "ghost" ∉ taskIds ghostTasks ∧
    topological_sort ghostTasks = ghostTasks ∧
    validate_dependencies (taskGraph ghostTasks) = some true := by
  refine ⟨by decide, by decide, by decide, ?_⟩
  apply validate_acyclic_true
  intro hcyc
  exact ghostTasks_acyclic ((hasCycle_congr (gEdge_taskGraph (by decide))).mp hcyc)

/-- C4 (amended): a dependency id that matches no task in the set is silently
ignored: for every task set with unique ids, duplicate-free dependency lists
and an acyclic dependency graph in which some task references an unknown id,
no error is raised and the scheduler still returns a permutation of *all*
tasks (no partial schedule, nothing reported). -/
theorem claim_C4_amended (tasks : List WorkTask) (hids : (taskIds tasks).Nodup)
    (hdeps : ∀ t ∈ tasks, t.dependencies.Nodup) (hacyc : Acyclic (Edge tasks))
    (hdangling : ∃ t ∈ tasks, ∃ d ∈ t.dependencies, d ∉ taskIds tasks) :
    (topological_sort tasks).Perm tasks :=
  topological_sort_perm hids hdeps hacyc

/-- C4 (witness): the single task `D` with the unknown dependency "ghost". -/
theorem claim_C4_witness :
    ((taskIds ghostTasks).Nodup ∧ (∀ t ∈ ghostTasks, t.dependencies.Nodup) ∧
      Acyclic (Edge ghostTasks) ∧
      (∃ t ∈ ghostTasks, ∃ d ∈ t.dependencies, d ∉ taskIds ghostTasks)) ∧
    (topological_sort ghostTasks).Perm ghostTasks :=
  ⟨⟨by decide, by decide, ghostTasks_acyclic, by decide⟩,
   claim_C4_amended ghostTasks (by decide) (by decide) ghostTasks_acyclic (by decide)⟩

end Planner
